import Mathlib

/-!
# helm-values-manager: merge with provenance

A shallow embedding of `src/main.go`.

* Go maps are association lists with unique keys; the order of the list is
  the order in which `range` visits the keys, so a statement over all lists
  covers every iteration order.  Two visits of one Go map may differ in
  order: they are two lists with the same bindings, and a statement that names
  one list twice is about two visits in the same order.  `m[k]` is `mapGet`,
  `m[k] = v` is `mapSet`.
* A value decoded by `yaml.Unmarshal` into `interface{}` is a `Raw`: a scalar
  (`nil`, `bool`, `int`, `float64`, `string`), a `[]interface{}` or a
  `map[interface{}]interface{}`.  The base and override documents, and the
  results of `convertMap`, are `HelmValues` whose values are `Raw`.
* The final tree additionally holds `HelmValues` built by `mergeValues`
  (`make(HelmValues)` and `convertMap`); its values are `FVal`.
* A `float64` is given by its IEEE-754 bit pattern; only equality on it is
  used, and that is decided on the bits.
* `fmt.Sprintf("%v", _)` is `Raw.format`; the renderings of a `float64` and of
  a `map[interface{}]interface{}` come from a `Fmt` argument.
-/

namespace HelmMerge

/-! ## Data model -/

/-- A YAML scalar as decoded into `interface{}`. -/
inductive Scalar where
  | null
  | bool (b : Bool)
  | int (i : Int)
  | float (bits : Nat)
  | str (s : String)
  deriving DecidableEq, Repr

/-- A decoded YAML value: the dynamic types `mergeValues` switches on. -/
inductive Raw where
  | scalar (s : Scalar)
  | seq (xs : List Raw)
  | map (m : List (Scalar × Raw))

/-- The type `HelmValues` (`map[string]interface{}`) of a loaded document. -/
abbrev HelmValues := List (String × Raw)

/-- A value of the final tree: a stored override value, or a `HelmValues`
created by `mergeValues`. -/
inductive FVal where
  | raw (r : Raw)
  | helm (m : List (String × FVal))

/-- The final tree `finalValues`. -/
abbrev FinalValues := List (String × FVal)

/-- The log `overrideHistory` (`map[string][]string`). -/
abbrev History := List (String × List String)

/-- Renderings of `%v` that are supplied from outside. -/
structure Fmt where
  float : Nat → String
  map : List (Scalar × Raw) → String

/-! ## Go primitives -/

/-- Map read `m[k]` with its `ok` flag. -/
def mapGet {α : Type} : List (String × α) → String → Option α
  | [], _ => none
  | (k', v) :: rest, k => if k' = k then some v else mapGet rest k

/-- Map write `m[k] = v`. -/
def mapSet {α : Type} : List (String × α) → String → α → List (String × α)
  | [], k, v => [(k, v)]
  | (k', v') :: rest, k, v =>
    if k' = k then (k, v) :: rest else (k', v') :: mapSet rest k v

/-- The bit pattern of a `float64` NaN. -/
def float64NaN (bits : Nat) : Bool :=
  (bits / 2 ^ 52) % 2 ^ 11 == 2 ^ 11 - 1 && bits % 2 ^ 52 != 0

/-- The bit pattern of a `float64` zero of either sign. -/
def float64Zero (bits : Nat) : Bool :=
  bits % 2 ^ 63 == 0

/-- Go `==` on two scalars held in `interface{}`: same dynamic type and equal
values. -/
def Scalar.goEq : Scalar → Scalar → Bool
  | .null, .null => true
  | .bool a, .bool b => a == b
  | .int a, .int b => a == b
  | .str a, .str b => a == b
  | .float a, .float b =>
    !float64NaN a && !float64NaN b && (a == b || (float64Zero a && float64Zero b))
  | _, _ => false

/-- Go `baseVal != v` where `v` reached the `default` branch of the switch. -/
def ifaceNe : Raw → Scalar → Bool
  | .scalar b, v => !b.goEq v
  | _, _ => true

/-- Read of a `map[interface{}]interface{}` at a key (`MapIndex`). -/
def lookupKey (k : Scalar) : List (Scalar × Raw) → Option Raw
  | [] => none
  | (k', v) :: rest => if k'.goEq k then some v else lookupKey k rest

mutual
/-- The function `reflect.DeepEqual` on decoded values. -/
def Raw.deepEqual : Raw → Raw → Bool
  | .scalar a, .scalar b => a.goEq b
  | .seq xs, .seq ys => Raw.deepEqualSeq xs ys
  | .map m1, .map m2 => m1.length == m2.length && Raw.deepEqualMap m1 m2
  | _, _ => false
/-- Deep equality of two slices: same length, equal element by element. -/
def Raw.deepEqualSeq : List Raw → List Raw → Bool
  | [], [] => true
  | x :: xs, y :: ys => Raw.deepEqual x y && Raw.deepEqualSeq xs ys
  | _, _ => false
/-- Every key of the first map is found in both maps with deeply equal
values. -/
def Raw.deepEqualMap : List (Scalar × Raw) → List (Scalar × Raw) → Bool
  | [], _ => true
  | (k, v1) :: rest, m2 =>
    k.goEq k &&
    (match lookupKey k m2 with
      | some v2 => Raw.deepEqual v1 v2
      | none => false) &&
    Raw.deepEqualMap rest m2
end

/-- The verb `%v` on a scalar. -/
def Scalar.format (F : Fmt) : Scalar → String
  | .null => "<nil>"
  | .bool b => if b then "true" else "false"
  | .int i => toString i
  | .float x => F.float x
  | .str s => s

mutual
/-- The verb `%v` on a decoded value. -/
def Raw.format (F : Fmt) : Raw → String
  | .scalar s => s.format F
  | .seq xs => "[" ++ Raw.formatSeq F xs ++ "]"
  | .map m => F.map m
/-- Elements of a slice, separated by one space. -/
def Raw.formatSeq (F : Fmt) : List Raw → String
  | [] => ""
  | x :: rest =>
    Raw.format F x ++ (match rest with | [] => "" | _ :: _ => " ") ++ Raw.formatSeq F rest
end

/-! ## The program -/

/-- Entries recorded for a path: `overrideHistory[key]`. -/
def entriesFor (h : History) (key : String) : List String :=
  (mapGet h key).getD []

/-- The statement `overrideHistory[key] = append(overrideHistory[key], entry)`. -/
def appendEntry (h : History) (key entry : String) : History :=
  mapSet h key (entriesFor h key ++ [entry])

/-- The function `convertMap`: every key is replaced by its `%v` rendering,
the values are kept as they are. -/
def convertMap (F : Fmt) (input : List (Scalar × Raw)) : HelmValues :=
  input.foldl (fun output kv => mapSet output (kv.1.format F) kv.2) []

/-- A `HelmValues` of decoded values as a value of the final tree. -/
def FVal.ofHelm (m : HelmValues) : FVal :=
  .helm (m.map fun kv => (kv.1, FVal.raw kv.2))

/-- The type assertion `finalValues[k].(HelmValues)`, with a fresh empty map
when it fails. -/
def subFinal (final : FinalValues) (k : String) : FinalValues :=
  match mapGet final k with
  | some (.helm m) => m
  | _ => []

/-- The text `fmt.Sprintf("New map structure from %s", filename)`. -/
def newMapText (filename : String) : String :=
  "New map structure from " ++ filename

/-- The text `fmt.Sprintf("Base list: %v, Override list: %v (%s)", ...)`. -/
def listChangedText (F : Fmt) (baseVal vTyped : List Raw) (filename : String) : String :=
  "Base list: " ++ Raw.format F (.seq baseVal) ++ ", Override list: " ++
    Raw.format F (.seq vTyped) ++ " (" ++ filename ++ ")"

/-- The text `fmt.Sprintf("New list: %v (%s)", vTyped, filename)`. -/
def newListText (F : Fmt) (vTyped : List Raw) (filename : String) : String :=
  "New list: " ++ Raw.format F (.seq vTyped) ++ " (" ++ filename ++ ")"

/-- The text `fmt.Sprintf("Base value: %v, Override value: %v (%s)", ...)`. -/
def valueChangedText (F : Fmt) (baseVal : Raw) (v : Scalar) (filename : String) : String :=
  "Base value: " ++ Raw.format F baseVal ++ ", Override value: " ++ v.format F ++
    " (" ++ filename ++ ")"

/-- The text `fmt.Sprintf("New value: %v (%s)", v, filename)`. -/
def newValueText (F : Fmt) (v : Scalar) (filename : String) : String :=
  "New value: " ++ v.format F ++ " (" ++ filename ++ ")"

/-- The body of the loop of `mergeValues` for one key `kv.1` with value
`kv.2`; `recur` is the recursive call. -/
def mergeEntry
    (recur : HelmValues → HelmValues → String → History → FinalValues → String →
      History × FinalValues)
    (F : Fmt) (base : HelmValues) (path : String) (filename : String)
    (st : History × FinalValues) (kv : String × Raw) : History × FinalValues :=
  let fullKey := path ++ "." ++ kv.1
  match kv.2 with
  | .map vTyped =>
    match mapGet base kv.1 with
    | some (.map baseVal) =>
      let r := recur (convertMap F baseVal) (convertMap F vTyped) fullKey st.1
        (subFinal st.2 kv.1) filename
      (r.1, mapSet st.2 kv.1 (.helm r.2))
    | _ =>
      (appendEntry st.1 fullKey (newMapText filename),
        mapSet st.2 kv.1 (FVal.ofHelm (convertMap F vTyped)))
  | .seq vTyped =>
    let hist :=
      match mapGet base kv.1 with
      | some (.seq baseVal) =>
        if !Raw.deepEqual (.seq baseVal) (.seq vTyped) then
          appendEntry st.1 fullKey (listChangedText F baseVal vTyped filename)
        else st.1
      | _ => appendEntry st.1 fullKey (newListText F vTyped filename)
    (hist, mapSet st.2 kv.1 (.raw (.seq vTyped)))
  | .scalar v =>
    let hist :=
      match mapGet base kv.1 with
      | some baseVal =>
        if ifaceNe baseVal v then
          appendEntry st.1 fullKey (valueChangedText F baseVal v filename)
        else st.1
      | none => appendEntry st.1 fullKey (newValueText F v filename)
    (hist, mapSet st.2 kv.1 (.raw (.scalar v)))

mutual
/-- Nesting depth of mappings in a decoded value. -/
def Raw.depth : Raw → Nat
  | .scalar _ => 0
  | .seq _ => 0
  | .map m => Raw.depthMap m + 1
/-- Largest depth among the values of a mapping. -/
def Raw.depthMap : List (Scalar × Raw) → Nat
  | [] => 0
  | (_, v) :: rest => max (Raw.depth v) (Raw.depthMap rest)
end

/-- Largest depth among the values of a document. -/
def hvDepth : HelmValues → Nat
  | [] => 0
  | (_, v) :: rest => max (Raw.depth v) (hvDepth rest)

/-- The function `mergeValues` with a bound on the recursion depth. -/
def mergeFuel (F : Fmt) : Nat → HelmValues → HelmValues → String → History → FinalValues →
    String → History × FinalValues
  | 0, _, _, _, hist, final, _ => (hist, final)
  | n + 1, base, override, path, hist, final, filename =>
    override.foldl (mergeEntry (mergeFuel F n) F base path filename) (hist, final)

/-- The function `mergeValues`: the log and the final tree are passed in and
returned.  The recursion descends one mapping level of the override per call,
so the depth of the override bounds it. -/
def mergeValues (F : Fmt) (base override : HelmValues) (path : String) (hist : History)
    (final : FinalValues) (filename : String) : History × FinalValues :=
  mergeFuel F (hvDepth override + 1) base override path hist final filename

/-- The function `getFinalValue`: `none` is the result `(nil, false)`. -/
def getFinalValue : FinalValues → List String → Option FVal
  | _, [] => none
  | currentMap, [key] => mapGet currentMap key
  | currentMap, key :: rest =>
    match mapGet currentMap key with
    | some (.helm nextMap) => getFinalValue nextMap rest
    | _ => none

/-- The loop of `main` over the override files, each merged against the same
base. -/
def mergeAll (F : Fmt) (base : HelmValues) :
    List (String × HelmValues) → History × FinalValues → History × FinalValues
  | [], st => st
  | (filename, override) :: rest, st =>
    mergeAll F base rest (mergeValues F base override "" st.1 st.2 filename)

/-! ## Derived descriptions used in the proofs

One call of `mergeValues` is split into the entries it appends, in order, and
the final tree it leaves. -/

/-- One appended entry: the path key and the text. -/
abbrev Event := String × String

/-- Appending a run of entries to the log. -/
def applyEvents (h : History) (evs : List Event) : History :=
  evs.foldl (fun acc e => appendEntry acc e.1 e.2) h

/-- The entries appended by the loop body for one key. -/
def entryEvents (recur : HelmValues → HelmValues → String → String → List Event)
    (F : Fmt) (base : HelmValues) (path : String) (filename : String)
    (kv : String × Raw) : List Event :=
  let fullKey := path ++ "." ++ kv.1
  match kv.2 with
  | .map vTyped =>
    match mapGet base kv.1 with
    | some (.map baseVal) => recur (convertMap F baseVal) (convertMap F vTyped) fullKey filename
    | _ => [(fullKey, newMapText filename)]
  | .seq vTyped =>
    match mapGet base kv.1 with
    | some (.seq baseVal) =>
      if !Raw.deepEqual (.seq baseVal) (.seq vTyped) then
        [(fullKey, listChangedText F baseVal vTyped filename)]
      else []
    | _ => [(fullKey, newListText F vTyped filename)]
  | .scalar v =>
    match mapGet base kv.1 with
    | some baseVal =>
      if ifaceNe baseVal v then [(fullKey, valueChangedText F baseVal v filename)] else []
    | none => [(fullKey, newValueText F v filename)]

/-- The entries appended by `mergeFuel`, in order. -/
def eventsFuel (F : Fmt) : Nat → HelmValues → HelmValues → String → String → List Event
  | 0, _, _, _, _ => []
  | n + 1, base, override, path, filename =>
    override.flatMap (entryEvents (eventsFuel F n) F base path filename)

/-- The value the loop body stores at its key; `sub` is the mapping already
in the final tree at that key and `recur` the recursive call. -/
def entryValue (recur : HelmValues → HelmValues → FinalValues → FinalValues)
    (F : Fmt) (base : HelmValues) (sub : FinalValues) (kv : String × Raw) : FVal :=
  match kv.2 with
  | .map vTyped =>
    match mapGet base kv.1 with
    | some (.map baseVal) => .helm (recur (convertMap F baseVal) (convertMap F vTyped) sub)
    | _ => FVal.ofHelm (convertMap F vTyped)
  | .seq vTyped => .raw (.seq vTyped)
  | .scalar v => .raw (.scalar v)

/-- The final tree after the loop body for one key. -/
def entryFinal (recur : HelmValues → HelmValues → FinalValues → FinalValues)
    (F : Fmt) (base : HelmValues) (final : FinalValues) (kv : String × Raw) : FinalValues :=
  mapSet final kv.1 (entryValue recur F base (subFinal final kv.1) kv)

/-- The final tree left by `mergeFuel`. -/
def finalFuel (F : Fmt) : Nat → HelmValues → HelmValues → FinalValues → FinalValues
  | 0, _, _, final => final
  | n + 1, base, override, final =>
    override.foldl (entryFinal (finalFuel F n) F base) final

/-- The log key of a path given by its segments, as `mergeValues` builds it
from the root path `""`: each level appends `"." + k`. -/
def pathKey (segs : List String) : String :=
  segs.foldl (fun p k => p ++ "." ++ k) ""

/-- The base document `a: {x: 1, y: 2}`. -/
def scenarioBase : HelmValues :=
  [("a", .map [(.str "x", .scalar (.int 1)), (.str "y", .scalar (.int 2))])]

/-- The override document `a: {x: 5}`. -/
def scenarioOverride1 : HelmValues :=
  [("a", .map [(.str "x", .scalar (.int 5))])]

/-- The override document `a: {z: 9}`. -/
def scenarioOverride2 : HelmValues :=
  [("a", .map [(.str "z", .scalar (.int 9))])]

/-- A renderer for the examples: it prints a float as `NaN`, the only float
that occurs in them, and a nested map as `map[]`. -/
def Fmt.plain : Fmt := ⟨fun _ => "NaN", fun _ => "map[]"⟩

/-- The text names the file: the file name occurs in it, at the end or
followed by the closing bracket. -/
def NamesSource (filename entry : String) : Prop :=
  ∃ before after, entry = before ++ filename ++ after ∧ (after = "" ∨ after = ")")

/-- The keys of a `map[interface{}]interface{}` are pairwise unequal under Go
`==`, as the keys of a Go map are. -/
def keysDistinct : List (Scalar × Raw) → Bool
  | [] => true
  | (k, _) :: rest => rest.all (fun kv => !k.goEq kv.1) && keysDistinct rest

mutual
/-- A decoded value without NaN: every scalar in it, keys included, is equal
to itself under Go `==`, and every mapping in it has pairwise unequal keys. -/
def Raw.regular : Raw → Bool
  | .scalar s => s.goEq s
  | .seq xs => Raw.regularSeq xs
  | .map m => keysDistinct m && Raw.regularMap m
/-- Every element of a slice is regular. -/
def Raw.regularSeq : List Raw → Bool
  | [] => true
  | x :: xs => Raw.regular x && Raw.regularSeq xs
/-- Every key of a mapping is equal to itself and every value is regular. -/
def Raw.regularMap : List (Scalar × Raw) → Bool
  | [] => true
  | (k, v) :: rest => k.goEq k && Raw.regular v && Raw.regularMap rest
end

/-- The value a document holds at a path, nested mappings being read through
`convertMap` as `mergeValues` reads them. -/
def rawGet (F : Fmt) : HelmValues → List String → Option Raw
  | _, [] => none
  | m, [key] => mapGet m key
  | m, key :: rest =>
    match mapGet m key with
    | some (.map next) => rawGet F (convertMap F next) rest
    | _ => none

/-- What the final tree holds at a path agrees with what a document holds
there: both nothing, or the same scalar or sequence, or a mapping on both
sides. -/
def Agrees : Option FVal → Option Raw → Prop
  | none, none => True
  | some (.helm _), some (.map _) => True
  | some (.raw v), some w => v = w ∧ ∀ m, w ≠ .map m
  | _, _ => False

mutual
/-- The function `reflect.DeepEqual` on values of the final tree; a
`HelmValues` and a `map[interface{}]interface{}` are of different types. -/
def FVal.deepEqual : FVal → FVal → Bool
  | .raw a, .raw b => a.deepEqual b
  | .helm m1, .helm m2 => m1.length == m2.length && FVal.deepEqualHelm m1 m2
  | _, _ => false
/-- Every key of the first map is found in the second with a deeply equal
value. -/
def FVal.deepEqualHelm : List (String × FVal) → List (String × FVal) → Bool
  | [], _ => true
  | (k, v1) :: rest, m2 =>
    (match mapGet m2 k with
      | some v2 => FVal.deepEqual v1 v2
      | none => false) &&
    FVal.deepEqualHelm rest m2
end

/-- The base document `a: .nan`; the bits are those of Go `math.NaN()`. -/
def nanBase : HelmValues :=
  [("a", .scalar (.float 0x7FF8000000000001))]

/-- The base document `a: {1: x}`, the nested key being the integer 1. -/
def intKeyBase : HelmValues :=
  [("a", .map [(.int 1, .scalar (.str "x"))])]

/-- The base document `a: {1: x, "1": y}`: an integer key and a string key
with the same rendering. -/
def collidingBase : HelmValues :=
  [("a", .map [(.int 1, .scalar (.str "x")), (.str "1", .scalar (.str "y"))])]

/-- The same document as `collidingBase`, its nested mapping visited in the
other order. -/
def collidingOverride : HelmValues :=
  [("a", .map [(.str "1", .scalar (.str "y")), (.int 1, .scalar (.str "x"))])]

/-- The three kinds of value the type switch of `mergeValues` tells apart. -/
inductive Kind where
  | mapping
  | sequence
  | scalar
  deriving DecidableEq, Repr

/-- The kind of a decoded value. -/
def Raw.kind : Raw → Kind
  | .scalar _ => .scalar
  | .seq _ => .sequence
  | .map _ => .mapping

/-- The kind of a value of the final tree; a `HelmValues` is a mapping. -/
def FVal.kind : FVal → Kind
  | .raw r => r.kind
  | .helm _ => .mapping

/-- The mapping a value of the final tree is, read with string keys: a
`HelmValues` as it stands, a `map[interface{}]interface{}` through
`convertMap`; nothing for a scalar or a sequence. -/
def mappingOf (F : Fmt) : FVal → Option FinalValues
  | .helm m => some m
  | .raw (.map rm) => some ((convertMap F rm).map fun kv => (kv.1, FVal.raw kv.2))
  | .raw _ => none

/-- Walking a path through the nested mappings of the final tree, of either
representation: every segment but the last must name a mapping, and the last
is looked up in the mapping reached. -/
def walkFinal (F : Fmt) : FinalValues → List String → Option FVal
  | _, [] => none
  | m, [key] => mapGet m key
  | m, key :: rest =>
    match mapGet m key with
    | some v =>
      match mappingOf F v with
      | some next => walkFinal F next rest
      | none => none
    | none => none

/-- The scalar is a string. -/
def Scalar.isStr : Scalar → Bool
  | .str _ => true
  | _ => false

mutual
/-- Outside sequences, every mapping of the value has string keys only,
pairwise distinct as the keys of a Go map are. -/
def Raw.stringKeyed : Raw → Bool
  | .scalar _ => true
  | .seq _ => true
  | .map m => keysDistinct m && Raw.stringKeyedMap m
/-- Every key is a string and every value is string-keyed. -/
def Raw.stringKeyedMap : List (Scalar × Raw) → Bool
  | [] => true
  | (k, v) :: rest => k.isStr && Raw.stringKeyed v && Raw.stringKeyedMap rest
end

/-- The raw mapping `{1: {2: x}}`, both keys integers. -/
def intKeyNested : List (Scalar × Raw) :=
  [(.int 1, .map [(.int 2, .scalar (.str "x"))])]

/-- The log key reached from `path` by descending through the keys `segs`:
each level of `mergeValues` appends `"." + k`. -/
def pathFrom (path : String) (segs : List String) : String :=
  segs.foldl (fun p k => p ++ "." ++ k) path

/-- The segments of a path joined by dots, as in `a.b.c`. -/
def dotJoin (segs : List String) : String :=
  String.intercalate "." segs

/-- A key sequence of a document: the first key is a key of the document, and
each further key is a key of the mapping the previous key holds, read through
`convertMap`. -/
def KeyChain (F : Fmt) : HelmValues → List String → Prop
  | _, [] => False
  | m, [key] => ∃ v, (key, v) ∈ m
  | m, key :: rest => ∃ next, (key, Raw.map next) ∈ m ∧ KeyChain F (convertMap F next) rest

mutual
/-- A value of the final tree with every `HelmValues` read back as a decoded
mapping with string keys. -/
def FVal.toRaw : FVal → Raw
  | .raw r => r
  | .helm m => .map (FVal.toRawMap m)
/-- The bindings of a `HelmValues` read back as decoded bindings. -/
def FVal.toRawMap : List (String × FVal) → List (Scalar × Raw)
  | [] => []
  | (k, v) :: rest => (.str k, FVal.toRaw v) :: FVal.toRawMap rest
end

/-- The override document `a: {b: {c: 1}}`. -/
def deepOverride : HelmValues :=
  [("a", .map [(.str "b", .map [(.str "c", .scalar (.int 1))])])]

/-- The function `strings.Split(s, ".")` on the characters of `s`. -/
def splitDotsChars : List Char → List (List Char)
  | [] => [[]]
  | c :: cs =>
    if c = '.' then [] :: splitDotsChars cs
    else
      match splitDotsChars cs with
      | [] => [[c]]
      | hd :: tl => (c :: hd) :: tl

/-- The call `strings.Split(keys, ".")` of `main`. -/
def splitDots (s : String) : List String :=
  (splitDotsChars s.data).map String.mk

/-- The slice `key[1:]` of `main`, on a log key: every log key starts with the
one-byte character `.`, which the slice removes. -/
def dropLeading (key : String) : String :=
  String.mk (key.data.drop 1)

/-- The string has no dot in it. -/
def noDot (s : String) : Bool :=
  s.data.all fun c => c != '.'

mutual
/-- Outside sequences, no key of a mapping of the value has a dot in its `%v`
rendering. -/
def Raw.dotFree (F : Fmt) : Raw → Bool
  | .scalar _ => true
  | .seq _ => true
  | .map m => Raw.dotFreeMap F m
/-- No key rendering has a dot and every value is dot-free. -/
def Raw.dotFreeMap (F : Fmt) : List (Scalar × Raw) → Bool
  | [] => true
  | (k, v) :: rest => noDot (k.format F) && Raw.dotFree F v && Raw.dotFreeMap F rest
end

/-- How the non-recursing branches of `mergeValues` store an override value: a
scalar or a sequence as it is, a mapping through `convertMap`. -/
def storedAs (F : Fmt) : Raw → FVal
  | .map m => FVal.ofHelm (convertMap F m)
  | .seq xs => .raw (.seq xs)
  | .scalar s => .raw (.scalar s)

/-- The base document `a: {}`. -/
def dottedBase : HelmValues :=
  [("a", .map [])]

/-- The override document `{"a.b": 1, a: {b: 2}}`, the key `a.b` visited
first. -/
def dottedOverride : HelmValues :=
  [("a.b", .scalar (.int 1)), ("a", .map [(.str "b", .scalar (.int 2))])]

/-- The same document as `dottedOverride`, the key `a` visited first. -/
def dottedOverrideSwapped : HelmValues :=
  [("a", .map [(.str "b", .scalar (.int 2))]), ("a.b", .scalar (.int 1))]

/-! ## Maps as association lists -/

theorem mapGet_mapSet_same {α : Type} (m : List (String × α)) (k : String) (v : α) :
    mapGet (mapSet m k v) k = some v := by
  induction m with
  | nil => simp [mapSet, mapGet]
  | cons hd tl ih =>
    obtain ⟨k', v'⟩ := hd
    by_cases h : k' = k
    · simp [mapSet, mapGet, h]
    · simp [mapSet, mapGet, h, ih]

theorem mapGet_mapSet_ne {α : Type} (m : List (String × α)) (k q : String) (v : α)
    (hq : k ≠ q) : mapGet (mapSet m k v) q = mapGet m q := by
  induction m with
  | nil => simp [mapSet, mapGet, hq]
  | cons hd tl ih =>
    obtain ⟨k', v'⟩ := hd
    by_cases h : k' = k
    · subst h
      simp [mapSet, mapGet, hq]
    · by_cases h2 : k' = q
      · simp [mapSet, mapGet, h, h2]
        subst h2
        simp [h, mapGet]
      · simp [mapSet, mapGet, h, h2, ih]

theorem entriesFor_appendEntry_same (h : History) (k e : String) :
    entriesFor (appendEntry h k e) k = entriesFor h k ++ [e] := by
  simp [entriesFor, appendEntry, mapGet_mapSet_same]

theorem entriesFor_appendEntry_ne (h : History) (k q e : String) (hq : k ≠ q) :
    entriesFor (appendEntry h k e) q = entriesFor h q := by
  simp [entriesFor, appendEntry, mapGet_mapSet_ne _ _ _ _ hq]

theorem applyEvents_append (h : History) (xs ys : List Event) :
    applyEvents h (xs ++ ys) = applyEvents (applyEvents h xs) ys := by
  simp [applyEvents, List.foldl_append]

/-- Entries of a path after a run of appends: the old ones, then the texts of
the events keyed by that path, in order. -/
theorem entriesFor_applyEvents (evs : List Event) (h : History) (q : String) :
    entriesFor (applyEvents h evs) q =
      entriesFor h q ++ (evs.filter fun e => decide (e.1 = q)).map Prod.snd := by
  induction evs generalizing h with
  | nil => simp [applyEvents]
  | cons e rest ih =>
    have hstep : applyEvents h (e :: rest) = applyEvents (appendEntry h e.1 e.2) rest := rfl
    rw [hstep, ih]
    by_cases hq : e.1 = q
    · subst hq
      simp [entriesFor_appendEntry_same]
    · simp [entriesFor_appendEntry_ne _ _ _ _ hq, hq]

/-! ## The recursion of `mergeValues` -/

theorem depth_le_hvDepth {k : String} {v : Raw} {m : HelmValues} (h : (k, v) ∈ m) :
    Raw.depth v ≤ hvDepth m := by
  induction m with
  | nil => cases h
  | cons hd tl ih =>
    obtain ⟨k', v'⟩ := hd
    rcases List.mem_cons.mp h with h1 | h1
    · cases h1
      simp [hvDepth]
    · have := ih h1
      simp only [hvDepth]
      omega

theorem hvDepth_mapSet_le (m : HelmValues) (k : String) (v : Raw) :
    hvDepth (mapSet m k v) ≤ max (hvDepth m) (Raw.depth v) := by
  induction m with
  | nil => simp [mapSet, hvDepth]
  | cons hd tl ih =>
    obtain ⟨k', v'⟩ := hd
    by_cases h : k' = k
    · simp only [mapSet, h, if_true, hvDepth]
      omega
    · simp only [mapSet, h, if_false, hvDepth]
      omega

theorem hvDepth_foldl_mapSet_le (F : Fmt) (input : List (Scalar × Raw)) (acc : HelmValues) :
    hvDepth (input.foldl (fun output kv => mapSet output (kv.1.format F) kv.2) acc) ≤
      max (hvDepth acc) (Raw.depthMap input) := by
  induction input generalizing acc with
  | nil => simp [Raw.depthMap]
  | cons hd tl ih =>
    obtain ⟨k, v⟩ := hd
    have h1 := ih (mapSet acc (k.format F) v)
    have h2 := hvDepth_mapSet_le acc (k.format F) v
    simp only [List.foldl_cons, Raw.depthMap]
    omega

theorem hvDepth_convertMap_le (F : Fmt) (input : List (Scalar × Raw)) :
    hvDepth (convertMap F input) ≤ Raw.depthMap input := by
  have := hvDepth_foldl_mapSet_le F input []
  simpa [convertMap, hvDepth] using this

theorem hvDepth_convertMap_lt {F : Fmt} {k : String} {vm : List (Scalar × Raw)}
    {m : HelmValues} {n : Nat} (h : (k, Raw.map vm) ∈ m) (hn : hvDepth m < n + 1) :
    hvDepth (convertMap F vm) < n := by
  have h1 := depth_le_hvDepth h
  have h2 := hvDepth_convertMap_le F vm
  simp only [Raw.depth] at h1
  omega

theorem foldl_congr_mem {α β : Type} (g1 g2 : β → α → β) (xs : List α)
    (h : ∀ st, ∀ x ∈ xs, g1 st x = g2 st x) (s : β) :
    xs.foldl g1 s = xs.foldl g2 s := by
  induction xs generalizing s with
  | nil => rfl
  | cons x rest ih =>
    simp only [List.foldl_cons]
    rw [h s x (List.mem_cons_self _ _)]
    exact ih (fun st y hy => h st y (List.mem_cons_of_mem _ hy)) _

theorem mergeEntry_congr
    (r1 r2 : HelmValues → HelmValues → String → History → FinalValues → String →
      History × FinalValues)
    (F : Fmt) (base : HelmValues) (path filename : String) (st : History × FinalValues)
    (kv : String × Raw)
    (h : ∀ vm, kv.2 = Raw.map vm → ∀ b p hist final,
      r1 b (convertMap F vm) p hist final filename = r2 b (convertMap F vm) p hist final filename) :
    mergeEntry r1 F base path filename st kv = mergeEntry r2 F base path filename st kv := by
  obtain ⟨k, v⟩ := kv
  cases v with
  | scalar s => rfl
  | seq xs => rfl
  | map vm =>
    simp only [mergeEntry]
    split
    · rw [h vm rfl]
    · rfl

/-- Any fuel above the depth of the override gives the same result. -/
theorem mergeFuel_stable (F : Fmt) (n m : Nat) (base override : HelmValues) (path : String)
    (hist : History) (final : FinalValues) (filename : String)
    (hn : hvDepth override < n) (hm : hvDepth override < m) :
    mergeFuel F n base override path hist final filename =
      mergeFuel F m base override path hist final filename := by
  induction n generalizing m base override path hist final with
  | zero => omega
  | succ n ih =>
    cases m with
    | zero => omega
    | succ m =>
      simp only [mergeFuel]
      apply foldl_congr_mem
      intro st kv hkv
      apply mergeEntry_congr
      intro vm hvm b p h f
      have hmem : (kv.1, Raw.map vm) ∈ override := by
        rw [← hvm]
        exact hkv
      exact ih m b (convertMap F vm) p h f (hvDepth_convertMap_lt hmem hn)
        (hvDepth_convertMap_lt hmem hm)

/-- The defining equation of `mergeValues`: one pass of the loop body over the
keys of the override, the recursive call being `mergeValues` itself. -/
theorem mergeValues_eq (F : Fmt) (base override : HelmValues) (path : String)
    (hist : History) (final : FinalValues) (filename : String) :
    mergeValues F base override path hist final filename =
      override.foldl (mergeEntry (mergeValues F) F base path filename) (hist, final) := by
  simp only [mergeValues, mergeFuel]
  apply foldl_congr_mem
  intro st kv hkv
  apply mergeEntry_congr
  intro vm hvm b p h f
  have hmem : (kv.1, Raw.map vm) ∈ override := by
    rw [← hvm]
    exact hkv
  exact mergeFuel_stable F _ _ b (convertMap F vm) p h f filename
    (hvDepth_convertMap_lt hmem (Nat.lt_succ_self _)) (Nat.lt_succ_self _)

/-! ## Log and final tree, separately -/

theorem applyEvents_single (h : History) (k e : String) :
    applyEvents h [(k, e)] = appendEntry h k e := rfl

theorem applyEvents_nil (h : History) : applyEvents h [] = h := rfl

theorem mergeEntry_split
    (recur : HelmValues → HelmValues → String → History → FinalValues → String →
      History × FinalValues)
    (rEv : HelmValues → HelmValues → String → String → List Event)
    (rFin : HelmValues → HelmValues → FinalValues → FinalValues)
    (F : Fmt) (base : HelmValues) (path filename : String)
    (hrec : ∀ b o p h f, recur b o p h f filename = (applyEvents h (rEv b o p filename), rFin b o f))
    (st : History × FinalValues) (kv : String × Raw) :
    mergeEntry recur F base path filename st kv =
      (applyEvents st.1 (entryEvents rEv F base path filename kv),
        entryFinal rFin F base st.2 kv) := by
  obtain ⟨k, v⟩ := kv
  cases v with
  | scalar s =>
    simp only [mergeEntry, entryEvents, entryFinal, entryValue]
    split
    · split <;> simp [applyEvents_single, applyEvents_nil]
    · simp [applyEvents_single]
  | seq xs =>
    simp only [mergeEntry, entryEvents, entryFinal, entryValue]
    split
    · split <;> simp [applyEvents_single, applyEvents_nil]
    · simp [applyEvents_single]
  | map vm =>
    simp only [mergeEntry, entryEvents, entryFinal, entryValue]
    split
    · simp [hrec]
    · simp [applyEvents_single]

theorem foldl_mergeEntry_split
    (recur : HelmValues → HelmValues → String → History → FinalValues → String →
      History × FinalValues)
    (rEv : HelmValues → HelmValues → String → String → List Event)
    (rFin : HelmValues → HelmValues → FinalValues → FinalValues)
    (F : Fmt) (base : HelmValues) (path filename : String)
    (hrec : ∀ b o p h f, recur b o p h f filename = (applyEvents h (rEv b o p filename), rFin b o f))
    (override : HelmValues) (st : History × FinalValues) :
    override.foldl (mergeEntry recur F base path filename) st =
      (applyEvents st.1 (override.flatMap (entryEvents rEv F base path filename)),
        override.foldl (entryFinal rFin F base) st.2) := by
  induction override generalizing st with
  | nil => rfl
  | cons kv rest ih =>
    simp only [List.foldl_cons, List.flatMap_cons]
    rw [mergeEntry_split recur rEv rFin F base path filename hrec, ih, applyEvents_append]

/-- A call of `mergeFuel` appends `eventsFuel` to the log and leaves
`finalFuel` as the final tree. -/
theorem mergeFuel_split (F : Fmt) (n : Nat) (base override : HelmValues) (path : String)
    (hist : History) (final : FinalValues) (filename : String) :
    mergeFuel F n base override path hist final filename =
      (applyEvents hist (eventsFuel F n base override path filename),
        finalFuel F n base override final) := by
  induction n generalizing base override path hist final with
  | zero => rfl
  | succ n ih =>
    simp only [mergeFuel, eventsFuel, finalFuel]
    exact foldl_mergeEntry_split (mergeFuel F n) (eventsFuel F n) (finalFuel F n) F base path
      filename (fun b o p h f => ih b o p h f) override (hist, final)

theorem entriesFor_nil (q : String) : entriesFor [] q = [] := rfl

/-- The entries a call appends at a path are those the same call appends when
started on an empty log and an empty final tree. -/
theorem entriesFor_mergeValues (F : Fmt) (base override : HelmValues) (path : String)
    (hist : History) (final : FinalValues) (filename : String) (q : String) :
    entriesFor (mergeValues F base override path hist final filename).1 q =
      entriesFor hist q ++ entriesFor (mergeValues F base override path [] [] filename).1 q := by
  simp only [mergeValues, mergeFuel_split, entriesFor_applyEvents, entriesFor_nil,
    List.nil_append]

theorem entriesFor_mergeAll (F : Fmt) (base : HelmValues) (files : List (String × HelmValues))
    (st : History × FinalValues) (q : String) :
    entriesFor (mergeAll F base files st).1 q =
      entriesFor st.1 q ++
        files.flatMap (fun fo => entriesFor (mergeValues F base fo.2 "" [] [] fo.1).1 q) := by
  induction files generalizing st with
  | nil => simp [mergeAll]
  | cons fo rest ih =>
    obtain ⟨filename, override⟩ := fo
    simp only [mergeAll, List.flatMap_cons]
    rw [ih, entriesFor_mergeValues, List.append_assoc]

theorem entryEvents_namesSource
    (rEv : HelmValues → HelmValues → String → String → List Event)
    (F : Fmt) (base : HelmValues) (path filename : String) (kv : String × Raw)
    (hrec : ∀ b o p, ∀ e ∈ rEv b o p filename, NamesSource filename e.2) :
    ∀ e ∈ entryEvents rEv F base path filename kv, NamesSource filename e.2 := by
  obtain ⟨k, v⟩ := kv
  intro e he
  cases v with
  | scalar s =>
    simp only [entryEvents] at he
    split at he
    · split at he
      · simp only [List.mem_singleton] at he
        subst he
        exact ⟨_, ")", rfl, Or.inr rfl⟩
      · cases he
    · simp only [List.mem_singleton] at he
      subst he
      exact ⟨_, ")", rfl, Or.inr rfl⟩
  | seq xs =>
    simp only [entryEvents] at he
    split at he
    · split at he
      · simp only [List.mem_singleton] at he
        subst he
        exact ⟨_, ")", rfl, Or.inr rfl⟩
      · cases he
    · simp only [List.mem_singleton] at he
      subst he
      exact ⟨_, ")", rfl, Or.inr rfl⟩
  | map vm =>
    simp only [entryEvents] at he
    split at he
    · exact hrec _ _ _ e he
    · simp only [List.mem_singleton] at he
      subst he
      exact ⟨"New map structure from ", "", by simp [newMapText], Or.inl rfl⟩

theorem eventsFuel_namesSource (F : Fmt) (n : Nat) (base override : HelmValues)
    (path filename : String) :
    ∀ e ∈ eventsFuel F n base override path filename, NamesSource filename e.2 := by
  induction n generalizing base override path with
  | zero =>
    intro e he
    cases he
  | succ n ih =>
    intro e he
    simp only [eventsFuel, List.mem_flatMap] at he
    obtain ⟨kv, _, hkv⟩ := he
    exact entryEvents_namesSource (eventsFuel F n) F base path filename kv
      (fun b o p => ih b o p) e hkv

/-! ## One key at a time -/

theorem mergeValues_single (F : Fmt) (base : HelmValues) (k : String) (v : Raw)
    (path : String) (hist : History) (final : FinalValues) (filename : String) :
    mergeValues F base [(k, v)] path hist final filename =
      mergeEntry (mergeValues F) F base path filename (hist, final) (k, v) := by
  rw [mergeValues_eq]
  rfl

/-- Processing the keys of `xs ++ ys` is processing `xs`, then `ys` from the
state reached. -/
theorem mergeValues_append (F : Fmt) (base xs ys : HelmValues) (path : String)
    (hist : History) (final : FinalValues) (filename : String) :
    mergeValues F base (xs ++ ys) path hist final filename =
      mergeValues F base ys path (mergeValues F base xs path hist final filename).1
        (mergeValues F base xs path hist final filename).2 filename := by
  simp only [mergeValues_eq, List.foldl_append]

/-- The loop handles a key in the middle of an override as a one-key call
from the state the earlier keys have produced. -/
theorem mergeValues_at_key (F : Fmt) (base pre post : HelmValues) (k : String) (v : Raw)
    (path : String) (hist : History) (final : FinalValues) (filename : String) :
    mergeValues F base (pre ++ (k, v) :: post) path hist final filename =
      mergeValues F base post path
        (mergeValues F base [(k, v)] path
          (mergeValues F base pre path hist final filename).1
          (mergeValues F base pre path hist final filename).2 filename).1
        (mergeValues F base [(k, v)] path
          (mergeValues F base pre path hist final filename).1
          (mergeValues F base pre path hist final filename).2 filename).2 filename := by
  simp only [mergeValues_eq, List.foldl_append, List.foldl_cons, List.foldl_nil]

theorem foldl_entryFinal_get_ne (r : HelmValues → HelmValues → FinalValues → FinalValues)
    (F : Fmt) (base l : HelmValues) (final : FinalValues) (k : String)
    (h : ∀ kv ∈ l, kv.1 ≠ k) :
    mapGet (l.foldl (entryFinal r F base) final) k = mapGet final k := by
  induction l generalizing final with
  | nil => rfl
  | cons hd tl ih =>
    simp only [List.foldl_cons]
    rw [ih _ (fun kv hkv => h kv (List.mem_cons_of_mem _ hkv))]
    exact mapGet_mapSet_ne _ _ _ _ (h hd (List.mem_cons_self _ _))

theorem foldl_entryFinal_get (r : HelmValues → HelmValues → FinalValues → FinalValues)
    (F : Fmt) (base l : HelmValues) (final : FinalValues) (k : String) (v : Raw)
    (hnd : (l.map Prod.fst).Nodup) (hmem : (k, v) ∈ l) :
    mapGet (l.foldl (entryFinal r F base) final) k =
      some (entryValue r F base (subFinal final k) (k, v)) := by
  induction l generalizing final with
  | nil => cases hmem
  | cons hd tl ih =>
    simp only [List.map_cons, List.nodup_cons, List.mem_map, not_exists, not_and] at hnd
    simp only [List.foldl_cons]
    rcases List.mem_cons.mp hmem with h1 | h1
    · subst h1
      rw [foldl_entryFinal_get_ne]
      · exact mapGet_mapSet_same _ _ _
      · intro kv hkv hk
        exact hnd.1 kv hkv hk
    · have hne : hd.1 ≠ k := fun hk => hnd.1 (k, v) h1 hk.symm
      rw [ih _ hnd.2 h1]
      have hget : mapGet (entryFinal r F base final hd) k = mapGet final k :=
        mapGet_mapSet_ne _ _ _ _ hne
      simp only [subFinal, hget]

/-- The value `mergeValues` leaves at a key of the override. -/
theorem mergeValues_final_get (F : Fmt) (base override : HelmValues) (path : String)
    (hist : History) (final : FinalValues) (filename : String) (k : String) (v : Raw)
    (hnd : (override.map Prod.fst).Nodup) (hmem : (k, v) ∈ override) :
    mapGet (mergeValues F base override path hist final filename).2 k =
      some (entryValue (finalFuel F (hvDepth override)) F base (subFinal final k) (k, v)) := by
  simp only [mergeValues, mergeFuel_split, finalFuel]
  exact foldl_entryFinal_get _ F base override final k v hnd hmem

/-! ## The path keys of appended entries -/

theorem entryEvents_cases
    (rEv : HelmValues → HelmValues → String → String → List Event)
    (F : Fmt) (base : HelmValues) (path filename : String) (kv : String × Raw) (e : Event)
    (he : e ∈ entryEvents rEv F base path filename kv) :
    e.1 = path ++ "." ++ kv.1 ∨
      ∃ bm vm, e ∈ rEv (convertMap F bm) (convertMap F vm) (path ++ "." ++ kv.1) filename := by
  obtain ⟨k, v⟩ := kv
  cases v with
  | scalar s =>
    simp only [entryEvents] at he
    split at he
    · split at he
      · simp only [List.mem_singleton] at he
        subst he
        exact Or.inl rfl
      · cases he
    · simp only [List.mem_singleton] at he
      subst he
      exact Or.inl rfl
  | seq xs =>
    simp only [entryEvents] at he
    split at he
    · split at he
      · simp only [List.mem_singleton] at he
        subst he
        exact Or.inl rfl
      · cases he
    · simp only [List.mem_singleton] at he
      subst he
      exact Or.inl rfl
  | map vm =>
    simp only [entryEvents] at he
    split at he
    · exact Or.inr ⟨_, _, he⟩
    · simp only [List.mem_singleton] at he
      subst he
      exact Or.inl rfl

/-- Every appended entry is keyed by the path of a key of the override, or by
that path followed by a dot and more. -/
theorem eventsFuel_key (F : Fmt) (n : Nat) (base override : HelmValues)
    (path filename : String) :
    ∀ e ∈ eventsFuel F n base override path filename,
      ∃ kv ∈ override, ∃ suffix : String,
        e.1 = path ++ "." ++ kv.1 ++ suffix ∧ (suffix = "" ∨ ∃ t, suffix = "." ++ t) := by
  induction n generalizing base override path with
  | zero =>
    intro e he
    cases he
  | succ n ih =>
    intro e he
    simp only [eventsFuel, List.mem_flatMap] at he
    obtain ⟨kv, hkv, hev⟩ := he
    rcases entryEvents_cases (eventsFuel F n) F base path filename kv e hev with h | ⟨bm, vm, h⟩
    · exact ⟨kv, hkv, "", by simp [h], Or.inl rfl⟩
    · obtain ⟨kv2, _, suffix, hkey, _⟩ := ih _ _ _ e h
      refine ⟨kv, hkv, "." ++ (kv2.1 ++ suffix), ?_, Or.inr ⟨_, rfl⟩⟩
      rw [hkey]
      simp only [String.append_assoc]

theorem entriesFor_mergeValues_changed (F : Fmt) (base override : HelmValues) (path : String)
    (hist : History) (final : FinalValues) (filename : String) (q : String)
    (h : entriesFor (mergeValues F base override path hist final filename).1 q ≠
      entriesFor hist q) :
    ∃ kv ∈ override, ∃ suffix : String,
      q = path ++ "." ++ kv.1 ++ suffix ∧ (suffix = "" ∨ ∃ t, suffix = "." ++ t) := by
  simp only [mergeValues, mergeFuel_split, entriesFor_applyEvents] at h
  cases hf : (eventsFuel F (hvDepth override + 1) base override path filename).filter
      (fun e => decide (e.1 = q)) with
  | nil =>
    rw [hf] at h
    simp at h
  | cons e rest =>
    have he : e ∈ (eventsFuel F (hvDepth override + 1) base override path filename).filter
        (fun e => decide (e.1 = q)) := by
      rw [hf]
      exact List.mem_cons_self _ _
    simp only [List.mem_filter, decide_eq_true_eq] at he
    obtain ⟨kv, hkv, suffix, hkey, hs⟩ := eventsFuel_key F _ base override path filename e he.1
    exact ⟨kv, hkv, suffix, by rw [← he.2, hkey], hs⟩

theorem string_ne_append_dot (s t u : String) : s ≠ s ++ "." ++ t ++ u := by
  intro h
  have := congrArg String.length h
  simp only [String.length_append] at this
  have h1 : ".".length = 1 := rfl
  omega

theorem listChangedText_ne_newListText (F : Fmt) (b v v' : List Raw) (f f' : String) :
    listChangedText F b v f ≠ newListText F v' f' := by
  intro h
  have h2 := congrArg String.data h
  simp only [listChangedText, newListText, String.data_append, List.append_assoc] at h2
  simp only [List.cons_append, List.cons.injEq] at h2
  exact absurd h2.1 (by decide)

/-! ## Paths of keys without a dot -/

theorem key_of_path_eq (p k k' suffix : String)
    (h : p ++ "." ++ k' ++ suffix = p ++ "." ++ k)
    (hs : suffix = "" ∨ ∃ t, suffix = "." ++ t) (hdot : '.' ∉ k.data) : k' = k := by
  have h2 := congrArg String.data h
  simp only [String.data_append, List.append_assoc, List.append_cancel_left_eq] at h2
  rcases hs with hs | ⟨t, hs⟩
  · subst hs
    apply String.ext
    simpa using h2
  · subst hs
    exfalso
    apply hdot
    rw [← h2]
    simp [String.data_append]

theorem nodup_keys_split {pre post : HelmValues} {k : String} {v : Raw}
    (h : ((pre ++ (k, v) :: post).map Prod.fst).Nodup) :
    (∀ kv ∈ pre, kv.1 ≠ k) ∧ (∀ kv ∈ post, kv.1 ≠ k) := by
  rw [List.map_append, List.map_cons, List.nodup_append] at h
  obtain ⟨_, h2, h3⟩ := h
  constructor
  · intro kv hkv hk
    exact h3 (List.mem_map_of_mem Prod.fst hkv) (by rw [hk]; exact List.mem_cons_self _ _)
  · intro kv hkv hk
    have := (List.nodup_cons.mp h2).1
    exact this (List.mem_map.mpr ⟨kv, hkv, hk⟩)

theorem events_filter_other_keys (F : Fmt) (n : Nat) (base l : HelmValues)
    (path filename k : String) (hdot : '.' ∉ k.data) (hl : ∀ kv ∈ l, kv.1 ≠ k) :
    (l.flatMap (entryEvents (eventsFuel F n) F base path filename)).filter
      (fun e => decide (e.1 = path ++ "." ++ k)) = [] := by
  rw [List.filter_eq_nil_iff]
  intro e he
  have he2 : e ∈ eventsFuel F (n + 1) base l path filename := he
  obtain ⟨kv, hkv, suffix, hkey, hs⟩ := eventsFuel_key F _ base l path filename e he2
  simp only [decide_eq_true_eq]
  intro heq
  rw [hkey] at heq
  exact hl kv hkv (key_of_path_eq path k kv.1 suffix heq hs hdot)

/-- At the path of a key without a dot, a call appends what the loop body
appends for that key. -/
theorem events_filter_key (F : Fmt) (n : Nat) (base override : HelmValues)
    (path filename k : String) (v : Raw) (hnd : (override.map Prod.fst).Nodup)
    (hmem : (k, v) ∈ override) (hdot : '.' ∉ k.data) :
    (eventsFuel F (n + 1) base override path filename).filter
        (fun e => decide (e.1 = path ++ "." ++ k)) =
      (entryEvents (eventsFuel F n) F base path filename (k, v)).filter
        (fun e => decide (e.1 = path ++ "." ++ k)) := by
  obtain ⟨pre, post, rfl⟩ := List.append_of_mem hmem
  obtain ⟨hpre, hpost⟩ := nodup_keys_split hnd
  simp only [eventsFuel, List.flatMap_append, List.flatMap_cons, List.filter_append]
  rw [events_filter_other_keys F n base pre path filename k hdot hpre,
    events_filter_other_keys F n base post path filename k hdot hpost]
  simp

/-! ## Deep equality of a regular value with itself -/

theorem lookupKey_of_mem {m : List (Scalar × Raw)} {k : Scalar} {v : Raw}
    (hd : keysDistinct m = true) (hk : k.goEq k = true) (hmem : (k, v) ∈ m) :
    lookupKey k m = some v := by
  induction m with
  | nil => cases hmem
  | cons hd' tl ih =>
    obtain ⟨k', v'⟩ := hd'
    simp only [keysDistinct, Bool.and_eq_true, List.all_eq_true, Bool.not_eq_true'] at hd
    rcases List.mem_cons.mp hmem with h1 | h1
    · cases h1
      simp [lookupKey, hk]
    · have hne : k'.goEq k = false := hd.1 (k, v) h1
      simp only [lookupKey, hne, Bool.false_eq_true, if_false]
      exact ih hd.2 h1

mutual
theorem Raw.deepEqual_self : ∀ v : Raw, v.regular = true → v.deepEqual v = true
  | .scalar s, h => by
    simpa [Raw.regular, Raw.deepEqual] using h
  | .seq xs, h => by
    simp only [Raw.regular] at h
    simp only [Raw.deepEqual]
    exact Raw.deepEqualSeq_self xs h
  | .map m, h => by
    simp only [Raw.regular, Bool.and_eq_true] at h
    simp only [Raw.deepEqual, beq_self_eq_true, Bool.true_and]
    exact Raw.deepEqualMap_self m m h.1 h.2 (fun _ hkv => hkv)
theorem Raw.deepEqualSeq_self : ∀ xs : List Raw, Raw.regularSeq xs = true →
    Raw.deepEqualSeq xs xs = true
  | [], _ => by
    simp [Raw.deepEqualSeq]
  | x :: xs, h => by
    simp only [Raw.regularSeq, Bool.and_eq_true] at h
    simp [Raw.deepEqualSeq, Raw.deepEqual_self x h.1, Raw.deepEqualSeq_self xs h.2]
theorem Raw.deepEqualMap_self : ∀ rest m : List (Scalar × Raw), keysDistinct m = true →
    Raw.regularMap rest = true → (∀ kv ∈ rest, kv ∈ m) → Raw.deepEqualMap rest m = true
  | [], _, _, _, _ => by
    simp [Raw.deepEqualMap]
  | (k, v) :: rest, m, hd, h, hsub => by
    simp only [Raw.regularMap, Bool.and_eq_true] at h
    have hl := lookupKey_of_mem hd h.1.1 (hsub (k, v) (List.mem_cons_self _ _))
    simp [Raw.deepEqualMap, hl, h.1.1, Raw.deepEqual_self v h.1.2,
      Raw.deepEqualMap_self rest m hd h.2 (fun kv hkv => hsub kv (List.mem_cons_of_mem _ hkv))]
end

theorem regular_of_mem_regularMap {m : List (Scalar × Raw)} {k : Scalar} {v : Raw}
    (h : Raw.regularMap m = true) (hmem : (k, v) ∈ m) : v.regular = true := by
  induction m with
  | nil => cases hmem
  | cons hd tl ih =>
    obtain ⟨k', v'⟩ := hd
    simp only [Raw.regularMap, Bool.and_eq_true] at h
    rcases List.mem_cons.mp hmem with h1 | h1
    · cases h1
      exact h.1.2
    · exact ih h.2 h1

/-! ## Keys and values of `mapSet` and `convertMap` -/

theorem mem_mapSet {α : Type} {m : List (String × α)} {k : String} {v : α}
    {kv : String × α} (h : kv ∈ mapSet m k v) : kv ∈ m ∨ kv = (k, v) := by
  induction m with
  | nil =>
    simp only [mapSet, List.mem_singleton] at h
    exact Or.inr h
  | cons hd tl ih =>
    obtain ⟨k', v'⟩ := hd
    by_cases hk : k' = k
    · simp only [mapSet, hk, if_true, List.mem_cons] at h
      rcases h with h | h
      · exact Or.inr h
      · exact Or.inl (List.mem_cons_of_mem _ h)
    · simp only [mapSet, hk, if_false, List.mem_cons] at h
      rcases h with h | h
      · exact Or.inl (h ▸ List.mem_cons_self _ _)
      · rcases ih h with h2 | h2
        · exact Or.inl (List.mem_cons_of_mem _ h2)
        · exact Or.inr h2

theorem nodup_keys_mapSet {α : Type} (m : List (String × α)) (k : String) (v : α)
    (h : (m.map Prod.fst).Nodup) : ((mapSet m k v).map Prod.fst).Nodup := by
  induction m with
  | nil => simp [mapSet]
  | cons hd tl ih =>
    obtain ⟨k', v'⟩ := hd
    simp only [List.map_cons, List.nodup_cons] at h
    by_cases hk : k' = k
    · subst hk
      simp only [mapSet, if_true, List.map_cons, List.nodup_cons]
      exact h
    · simp only [mapSet, hk, if_false, List.map_cons, List.nodup_cons]
      refine ⟨?_, ih h.2⟩
      intro hmem
      obtain ⟨kv, hkv, hfst⟩ := List.mem_map.mp hmem
      rcases mem_mapSet hkv with h2 | h2
      · exact h.1 (List.mem_map.mpr ⟨kv, h2, hfst⟩)
      · subst h2
        exact hk hfst.symm

theorem nodup_keys_convertMap (F : Fmt) (input : List (Scalar × Raw)) :
    ((convertMap F input).map Prod.fst).Nodup := by
  have hgen : ∀ (l : List (Scalar × Raw)) (acc : HelmValues), (acc.map Prod.fst).Nodup →
      ((l.foldl (fun output kv => mapSet output (kv.1.format F) kv.2) acc).map
        Prod.fst).Nodup := by
    intro l
    induction l with
    | nil =>
      intro acc h
      exact h
    | cons hd tl ih =>
      intro acc h
      exact ih _ (nodup_keys_mapSet acc _ _ h)
  exact hgen input [] List.nodup_nil

theorem mem_convertMap (F : Fmt) (input : List (Scalar × Raw)) (kv : String × Raw)
    (h : kv ∈ convertMap F input) : ∃ k, (k, kv.2) ∈ input ∧ kv.1 = k.format F := by
  have hgen : ∀ (l : List (Scalar × Raw)) (acc : HelmValues),
      kv ∈ l.foldl (fun output kv => mapSet output (kv.1.format F) kv.2) acc →
      kv ∈ acc ∨ ∃ k, (k, kv.2) ∈ l ∧ kv.1 = k.format F := by
    intro l
    induction l with
    | nil =>
      intro acc h
      exact Or.inl h
    | cons hd tl ih =>
      intro acc h
      rcases ih _ h with h1 | ⟨k, hk, hf⟩
      · rcases mem_mapSet h1 with h2 | h2
        · exact Or.inl h2
        · refine Or.inr ⟨hd.1, ?_, ?_⟩
          · rw [h2]
            exact List.mem_cons_self _ _
          · rw [h2]
      · exact Or.inr ⟨k, List.mem_cons_of_mem _ hk, hf⟩
  rcases hgen input [] h with h1 | h1
  · cases h1
  · exact h1

theorem mapGet_of_mem_nodup {α : Type} {m : List (String × α)} {k : String} {v : α}
    (hnd : (m.map Prod.fst).Nodup) (hmem : (k, v) ∈ m) : mapGet m k = some v := by
  induction m with
  | nil => cases hmem
  | cons hd tl ih =>
    obtain ⟨k', v'⟩ := hd
    simp only [List.map_cons, List.nodup_cons] at hnd
    rcases List.mem_cons.mp hmem with h1 | h1
    · cases h1
      simp [mapGet]
    · have hne : k' ≠ k := fun hk => hnd.1 (List.mem_map.mpr ⟨(k, v), h1, hk.symm⟩)
      simp only [mapGet, hne, if_false]
      exact ih hnd.2 h1

theorem mem_of_mapGet {α : Type} {m : List (String × α)} {k : String} {v : α}
    (h : mapGet m k = some v) : (k, v) ∈ m := by
  induction m with
  | nil => cases h
  | cons hd tl ih =>
    obtain ⟨k', v'⟩ := hd
    by_cases hk : k' = k
    · simp only [mapGet, hk, if_true, Option.some.injEq] at h
      subst hk
      subst h
      exact List.mem_cons_self _ _
    · simp only [mapGet, hk, if_false] at h
      exact List.mem_cons_of_mem _ (ih h)

theorem mapSet_fresh {α : Type} (m : List (String × α)) (k : String) (v : α)
    (h : mapGet m k = none) : mapSet m k v = m ++ [(k, v)] := by
  induction m with
  | nil => rfl
  | cons hd tl ih =>
    obtain ⟨k', v'⟩ := hd
    by_cases hk : k' = k
    · simp [mapGet, hk] at h
    · simp only [mapGet, hk, if_false] at h
      simp only [mapSet, hk, if_false, List.cons_append, ih h]

theorem mapGet_append_single {α : Type} (m : List (String × α)) (k q : String) (v : α)
    (h : mapGet m q = none) (hk : k ≠ q) : mapGet (m ++ [(k, v)]) q = none := by
  induction m with
  | nil => simp [mapGet, hk]
  | cons hd tl ih =>
    obtain ⟨k', v'⟩ := hd
    by_cases hq : k' = q
    · simp [mapGet, hq] at h
    · simp only [mapGet, hq, if_false] at h
      simp only [List.cons_append, mapGet, hq, if_false]
      exact ih h

theorem mapGet_map_entry {α β : Type} (f : String × α → β) (m : List (String × α))
    (k : String) :
    mapGet (m.map fun kv => (kv.1, f kv)) k = (mapGet m k).map fun v => f (k, v) := by
  induction m with
  | nil => rfl
  | cons hd tl ih =>
    obtain ⟨k', v'⟩ := hd
    by_cases hk : k' = k
    · subst hk
      simp [mapGet]
    · simp only [List.map_cons, mapGet, hk, if_false]
      exact ih

/-! ## Merging a document against itself -/

theorem regular_convertMap (F : Fmt) (m : List (Scalar × Raw))
    (h : Raw.regularMap m = true) : ∀ kv ∈ convertMap F m, kv.2.regular = true := by
  intro kv hkv
  obtain ⟨k, hk, _⟩ := mem_convertMap F m kv hkv
  exact regular_of_mem_regularMap h hk

theorem eventsFuel_self (F : Fmt) (n : Nat) (base : HelmValues) (path filename : String)
    (hnd : (base.map Prod.fst).Nodup) (hreg : ∀ kv ∈ base, kv.2.regular = true) :
    eventsFuel F n base base path filename = [] := by
  induction n generalizing base path with
  | zero => rfl
  | succ n ih =>
    simp only [eventsFuel, List.flatMap_eq_nil_iff]
    intro kv hkv
    obtain ⟨k, v⟩ := kv
    have hget : mapGet base k = some v := mapGet_of_mem_nodup hnd hkv
    have hv : v.regular = true := hreg (k, v) hkv
    cases v with
    | scalar s =>
      have hs : s.goEq s = true := by
        simpa [Raw.regular] using hv
      simp [entryEvents, hget, ifaceNe, hs]
    | seq xs =>
      simp [entryEvents, hget, Raw.deepEqual_self (.seq xs) hv]
    | map m =>
      simp only [entryEvents, hget]
      simp only [Raw.regular, Bool.and_eq_true] at hv
      exact ih (convertMap F m) _ (nodup_keys_convertMap F m) (regular_convertMap F m hv.2)

theorem foldl_entryFinal_fresh (r : HelmValues → HelmValues → FinalValues → FinalValues)
    (F : Fmt) (base l : HelmValues) (acc : FinalValues) (hnd : (l.map Prod.fst).Nodup)
    (hacc : ∀ kv ∈ l, mapGet acc kv.1 = none) :
    l.foldl (entryFinal r F base) acc =
      acc ++ l.map fun kv => (kv.1, entryValue r F base [] kv) := by
  induction l generalizing acc with
  | nil => simp
  | cons hd tl ih =>
    simp only [List.map_cons, List.nodup_cons] at hnd
    have hhd : mapGet acc hd.1 = none := hacc hd (List.mem_cons_self _ _)
    have hstep : entryFinal r F base acc hd = acc ++ [(hd.1, entryValue r F base [] hd)] := by
      simp only [entryFinal, subFinal, hhd]
      exact mapSet_fresh _ _ _ hhd
    simp only [List.foldl_cons, hstep, List.map_cons]
    rw [ih _ hnd.2]
    · simp
    · intro kv hkv
      apply mapGet_append_single _ _ _ _ (hacc kv (List.mem_cons_of_mem _ hkv))
      intro hk
      exact hnd.1 (List.mem_map.mpr ⟨kv, hkv, hk.symm⟩)

/-- Started on an empty final tree, a call leaves one binding per key of the
override, in the order of the keys. -/
theorem finalFuel_empty (F : Fmt) (n : Nat) (base override : HelmValues)
    (hnd : (override.map Prod.fst).Nodup) :
    finalFuel F (n + 1) base override [] =
      override.map fun kv => (kv.1, entryValue (finalFuel F n) F base [] kv) := by
  simp only [finalFuel]
  rw [foldl_entryFinal_fresh _ F base override [] hnd (fun _ _ => rfl)]
  simp

theorem finalFuel_self_agrees (F : Fmt) (n : Nat) (base : HelmValues)
    (hnd : (base.map Prod.fst).Nodup) (hn : hvDepth base < n) (segs : List String) :
    Agrees (getFinalValue (finalFuel F n base base []) segs) (rawGet F base segs) := by
  induction n generalizing base segs with
  | zero => omega
  | succ n ih =>
    rw [finalFuel_empty F n base base hnd]
    cases segs with
    | nil => simp [getFinalValue, rawGet, Agrees]
    | cons key rest =>
      have hget := mapGet_map_entry (fun kv => entryValue (finalFuel F n) F base [] kv) base key
      cases hb : mapGet base key with
      | none =>
        rw [hb] at hget
        generalize (base.map fun kv => (kv.1, entryValue (finalFuel F n) F base [] kv)) = fin
          at hget ⊢
        cases rest with
        | nil => simp [getFinalValue, rawGet, hget, hb, Agrees]
        | cons k2 rest2 => simp [getFinalValue, rawGet, hget, hb, Agrees]
      | some v =>
        rw [hb] at hget
        cases v with
        | scalar s =>
          have hX : entryValue (finalFuel F n) F base [] (key, Raw.scalar s) =
              .raw (.scalar s) := rfl
          rw [Option.map_some', hX] at hget
          generalize (base.map fun kv => (kv.1, entryValue (finalFuel F n) F base [] kv)) = fin
            at hget ⊢
          cases rest with
          | nil => simp [getFinalValue, rawGet, hget, hb, Agrees]
          | cons k2 rest2 => simp [getFinalValue, rawGet, hget, hb, Agrees]
        | seq xs =>
          have hX : entryValue (finalFuel F n) F base [] (key, Raw.seq xs) =
              .raw (.seq xs) := rfl
          rw [Option.map_some', hX] at hget
          generalize (base.map fun kv => (kv.1, entryValue (finalFuel F n) F base [] kv)) = fin
            at hget ⊢
          cases rest with
          | nil => simp [getFinalValue, rawGet, hget, hb, Agrees]
          | cons k2 rest2 => simp [getFinalValue, rawGet, hget, hb, Agrees]
        | map m =>
          have hX : entryValue (finalFuel F n) F base [] (key, Raw.map m) =
              .helm (finalFuel F n (convertMap F m) (convertMap F m) []) := by
            simp only [entryValue, hb]
          rw [Option.map_some', hX] at hget
          generalize (base.map fun kv => (kv.1, entryValue (finalFuel F n) F base [] kv)) = fin
            at hget ⊢
          cases rest with
          | nil => simp [getFinalValue, rawGet, hget, hb, Agrees]
          | cons k2 rest2 =>
            simp only [getFinalValue, rawGet, hget, hb]
            exact ih (convertMap F m) (nodup_keys_convertMap F m)
              (hvDepth_convertMap_lt (mem_of_mapGet hb) hn) (k2 :: rest2)

/-! ## `convertMap` on keys with distinct renderings -/

theorem foldl_mapSet_fresh (F : Fmt) (l : List (Scalar × Raw)) (acc : HelmValues)
    (hnd : (l.map fun kv => kv.1.format F).Nodup)
    (hacc : ∀ kv ∈ l, mapGet acc (kv.1.format F) = none) :
    l.foldl (fun output kv => mapSet output (kv.1.format F) kv.2) acc =
      acc ++ l.map fun kv => (kv.1.format F, kv.2) := by
  induction l generalizing acc with
  | nil => simp
  | cons hd tl ih =>
    simp only [List.map_cons, List.nodup_cons] at hnd
    have hhd : mapGet acc (hd.1.format F) = none := hacc hd (List.mem_cons_self _ _)
    simp only [List.foldl_cons, List.map_cons, mapSet_fresh _ _ _ hhd]
    rw [ih _ hnd.2]
    · simp
    · intro kv hkv
      apply mapGet_append_single _ _ _ _ (hacc kv (List.mem_cons_of_mem _ hkv))
      intro hk
      exact hnd.1 (List.mem_map.mpr ⟨kv, hkv, hk.symm⟩)

/-- When the keys of a mapping have pairwise distinct renderings, `convertMap`
keeps every binding, in order, with the key rendered and the value as it
was. -/
theorem convertMap_of_nodup (F : Fmt) (m : List (Scalar × Raw))
    (hnd : (m.map fun kv => kv.1.format F).Nodup) :
    convertMap F m = m.map fun kv => (kv.1.format F, kv.2) := by
  simp only [convertMap]
  rw [foldl_mapSet_fresh F m [] hnd (fun _ _ => rfl)]
  simp

/-! ## The resolver -/

theorem getFinalValue_cons_cons (final : FinalValues) (key k2 : String) (rest : List String) :
    getFinalValue final (key :: k2 :: rest) =
      match mapGet final key with
      | some (.helm nextMap) => getFinalValue nextMap (k2 :: rest)
      | _ => none := by
  simp only [getFinalValue]

/-- A path with something after the segment `s` is resolved by resolving the
path up to `s` and going on from the `HelmValues` found there. -/
theorem getFinalValue_append (final : FinalValues) (pre : List String) (s : String)
    (post : List String) (hpost : post ≠ []) :
    getFinalValue final (pre ++ s :: post) =
      match getFinalValue final (pre ++ [s]) with
      | some (.helm m) => getFinalValue m post
      | _ => none := by
  obtain ⟨p, ps, rfl⟩ := List.exists_cons_of_ne_nil hpost
  induction pre generalizing final with
  | nil =>
    simp only [List.nil_append, getFinalValue]
  | cons a pre ih =>
    cases pre with
    | nil =>
      simp only [List.cons_append, List.nil_append, getFinalValue_cons_cons]
      cases mapGet final a with
      | none => rfl
      | some v =>
        cases v with
        | raw r => rfl
        | helm m => exact ih m
    | cons b pre2 =>
      simp only [List.cons_append, getFinalValue_cons_cons] at ih ⊢
      cases mapGet final a with
      | none => rfl
      | some v =>
        cases v with
        | raw r => rfl
        | helm m => exact ih m

/-- What `getFinalValue` finds, the walk through the nested mappings reaches. -/
theorem walkFinal_of_getFinalValue (F : Fmt) (final : FinalValues) (segs : List String)
    (v : FVal) (h : getFinalValue final segs = some v) : walkFinal F final segs = some v := by
  induction segs generalizing final with
  | nil => simp [getFinalValue] at h
  | cons key rest ih =>
    cases rest with
    | nil => simpa [getFinalValue, walkFinal] using h
    | cons k2 rest2 =>
      rw [getFinalValue_cons_cons] at h
      cases hk : mapGet final key with
      | none => simp [hk] at h
      | some w =>
        cases w with
        | raw r => simp [hk] at h
        | helm m =>
          simp only [hk] at h
          simp only [walkFinal, hk, mappingOf]
          exact ih m h

theorem mapGet_isSome_mapSet {α : Type} (m : List (String × α)) (k q : String) (v : α)
    (h : (mapGet m q).isSome = true) : (mapGet (mapSet m k v) q).isSome = true := by
  by_cases hk : k = q
  · subst hk
    rw [mapGet_mapSet_same]
    rfl
  · rw [mapGet_mapSet_ne _ _ _ _ hk]
    exact h

theorem foldl_mapSet_isSome (F : Fmt) (l : List (Scalar × Raw)) (acc : HelmValues)
    (q : String) (h : (mapGet acc q).isSome = true) :
    (mapGet (l.foldl (fun output kv => mapSet output (kv.1.format F) kv.2) acc) q).isSome =
      true := by
  induction l generalizing acc with
  | nil => exact h
  | cons hd tl ih => exact ih _ (mapGet_isSome_mapSet acc _ q _ h)

theorem foldl_mapSet_key_bound (F : Fmt) (l : List (Scalar × Raw)) (acc : HelmValues)
    (k : Scalar) (v : Raw) (hmem : (k, v) ∈ l) :
    (mapGet (l.foldl (fun output kv => mapSet output (kv.1.format F) kv.2) acc)
      (k.format F)).isSome = true := by
  induction l generalizing acc with
  | nil => cases hmem
  | cons hd tl ih =>
    rcases List.mem_cons.mp hmem with h1 | h1
    · subst h1
      simp only [List.foldl_cons]
      apply foldl_mapSet_isSome
      rw [mapGet_mapSet_same]
      rfl
    · exact ih _ h1

/-- The rendering of every key of the input is a key of `convertMap`, bound to
the value of an input binding whose key has that rendering. -/
theorem convertMap_key_bound (F : Fmt) (m : List (Scalar × Raw)) (k : Scalar) (v : Raw)
    (hmem : (k, v) ∈ m) :
    ∃ v', mapGet (convertMap F m) (k.format F) = some v' ∧
      ∃ k', (k', v') ∈ m ∧ k'.format F = k.format F := by
  have h := foldl_mapSet_key_bound F m [] k v hmem
  cases hg : mapGet (convertMap F m) (k.format F) with
  | none =>
    simp only [convertMap] at hg
    rw [hg] at h
    cases h
  | some v' =>
    obtain ⟨k', hk', hf⟩ := mem_convertMap F m _ (mem_of_mapGet hg)
    exact ⟨v', rfl, k', hk', hf.symm⟩

/-! ## Applying an override twice -/

theorem mapSet_same_value {α : Type} (m : List (String × α)) (k : String) (v : α)
    (h : mapGet m k = some v) : mapSet m k v = m := by
  induction m with
  | nil => cases h
  | cons hd tl ih =>
    obtain ⟨k', v'⟩ := hd
    by_cases hk : k' = k
    · simp only [mapGet, hk, if_true, Option.some.injEq] at h
      simp only [mapSet, hk, if_true, h]
    · simp only [mapGet, hk, if_false] at h
      simp only [mapSet, hk, if_false, ih h]

theorem finalFuel_idempotent (F : Fmt) (n : Nat) (base override : HelmValues)
    (final : FinalValues) (hnd : (override.map Prod.fst).Nodup) :
    finalFuel F n base override (finalFuel F n base override final) =
      finalFuel F n base override final := by
  induction n generalizing base override final with
  | zero => rfl
  | succ n ih =>
    simp only [finalFuel]
    generalize hf1 : override.foldl (entryFinal (finalFuel F n) F base) final = final1
    have hstep : ∀ kv ∈ override, entryFinal (finalFuel F n) F base final1 kv = final1 := by
      intro kv hkv
      obtain ⟨k, v⟩ := kv
      have hget : mapGet final1 k =
          some (entryValue (finalFuel F n) F base (subFinal final k) (k, v)) := by
        rw [← hf1]
        exact foldl_entryFinal_get _ F base override final k v hnd hkv
      simp only [entryFinal]
      apply mapSet_same_value
      rw [hget]
      cases v with
      | scalar s => rfl
      | seq xs => rfl
      | map m =>
        simp only [entryValue] at hget ⊢
        split
        · rename_i bm hbm
          simp only [hbm] at hget
          simp only [subFinal, hget]
          rw [ih _ _ _ (nodup_keys_convertMap F m)]
        · rfl
    have hgen : ∀ l : HelmValues, (∀ kv ∈ l, kv ∈ override) →
        l.foldl (entryFinal (finalFuel F n) F base) final1 = final1 := by
      intro l
      induction l with
      | nil =>
        intro _
        rfl
      | cons hd tl ihl =>
        intro hsub
        simp only [List.foldl_cons]
        rw [hstep hd (hsub hd (List.mem_cons_self _ _))]
        exact ihl (fun kv hkv => hsub kv (List.mem_cons_of_mem _ hkv))
    exact hgen override (fun _ h => h)

/-! ## Path keys and key sequences -/

theorem entryEvents_mem
    (rEv : HelmValues → HelmValues → String → String → List Event)
    (F : Fmt) (base : HelmValues) (path filename : String) (k : String) (v : Raw) (e : Event)
    (he : e ∈ entryEvents rEv F base path filename (k, v)) :
    (e.1 = path ++ "." ++ k ∧ ∀ bm vm, ¬ (v = .map vm ∧ mapGet base k = some (.map bm))) ∨
    ∃ bm vm, v = .map vm ∧ mapGet base k = some (.map bm) ∧
      e ∈ rEv (convertMap F bm) (convertMap F vm) (path ++ "." ++ k) filename := by
  cases v with
  | scalar s =>
    left
    constructor
    · simp only [entryEvents] at he
      split at he
      · split at he
        · simp only [List.mem_singleton] at he
          subst he
          rfl
        · cases he
      · simp only [List.mem_singleton] at he
        subst he
        rfl
    · rintro bm vm ⟨h, _⟩
      cases h
  | seq xs =>
    left
    constructor
    · simp only [entryEvents] at he
      split at he
      · split at he
        · simp only [List.mem_singleton] at he
          subst he
          rfl
        · cases he
      · simp only [List.mem_singleton] at he
        subst he
        rfl
    · rintro bm vm ⟨h, _⟩
      cases h
  | map vm =>
    simp only [entryEvents] at he
    split at he
    · rename_i bm hbm
      exact Or.inr ⟨bm, vm, rfl, hbm, he⟩
    · rename_i hno
      simp only [List.mem_singleton] at he
      subst he
      left
      refine ⟨rfl, ?_⟩
      rintro bm vm2 ⟨_, hb⟩
      exact hno bm hb

theorem keyChain_cons {F : Fmt} {m : HelmValues} {key : String} {next : List (Scalar × Raw)}
    {rest : List String} (hmem : (key, Raw.map next) ∈ m)
    (h : KeyChain F (convertMap F next) rest) : KeyChain F m (key :: rest) := by
  cases rest with
  | nil => exact absurd h (by simp [KeyChain])
  | cons k2 rest2 => exact ⟨next, hmem, h⟩

/-- Every appended entry is keyed by the path of a key sequence of the
override. -/
theorem eventsFuel_chain (F : Fmt) (n : Nat) (base override : HelmValues)
    (path filename : String) :
    ∀ e ∈ eventsFuel F n base override path filename,
      ∃ segs, KeyChain F override segs ∧ e.1 = pathFrom path segs := by
  induction n generalizing base override path with
  | zero =>
    intro e he
    cases he
  | succ n ih =>
    intro e he
    simp only [eventsFuel, List.mem_flatMap] at he
    obtain ⟨⟨k, v⟩, hkv, hev⟩ := he
    rcases entryEvents_mem (eventsFuel F n) F base path filename k v e hev with
      ⟨h, _⟩ | ⟨bm, vm, hv, _, h⟩
    · exact ⟨[k], ⟨v, hkv⟩, h⟩
    · subst hv
      obtain ⟨segs, hchain, hkey⟩ := ih _ _ _ e h
      exact ⟨k :: segs, keyChain_cons hkv hchain, hkey⟩

theorem foldl_dot_shift (l : List String) (c a : String) :
    l.foldl (fun p k => p ++ "." ++ k) (c ++ a) =
      c ++ l.foldl (fun p k => p ++ "." ++ k) a := by
  induction l generalizing a with
  | nil => rfl
  | cons x rest ih =>
    simp only [List.foldl_cons]
    rw [← ih]
    simp only [String.append_assoc]

theorem intercalate_go_eq (s acc : String) (l : List String) :
    String.intercalate.go acc s l = l.foldl (fun p k => p ++ s ++ k) acc := by
  induction l generalizing acc with
  | nil => rfl
  | cons x rest ih =>
    simp only [String.intercalate.go, List.foldl_cons]
    exact ih _

/-- The log key of a non-empty key sequence is the starting path, a dot, and
the segments joined by dots. -/
theorem pathFrom_eq_dotJoin (path : String) (segs : List String) (h : segs ≠ []) :
    pathFrom path segs = path ++ "." ++ dotJoin segs := by
  obtain ⟨a, rest, rfl⟩ := List.exists_cons_of_ne_nil h
  simp only [pathFrom, dotJoin, String.intercalate, List.foldl_cons, intercalate_go_eq]
  exact foldl_dot_shift rest (path ++ ".") a

theorem keyChain_ne_nil {F : Fmt} {m : HelmValues} {segs : List String}
    (h : KeyChain F m segs) : segs ≠ [] := by
  intro hs
  subst hs
  simp [KeyChain] at h

/-! ## The final tree of one call from an empty tree -/

theorem toRawMap_eq_map (m : List (String × FVal)) :
    FVal.toRawMap m = m.map fun kv => (Scalar.str kv.1, kv.2.toRaw) := by
  induction m with
  | nil => rfl
  | cons hd tl ih =>
    obtain ⟨k, v⟩ := hd
    simp only [FVal.toRawMap, List.map_cons, ih]

theorem stringKeyed_of_mem {m : List (Scalar × Raw)} {k : Scalar} {v : Raw}
    (h : Raw.stringKeyedMap m = true) (hmem : (k, v) ∈ m) :
    k.isStr = true ∧ v.stringKeyed = true := by
  induction m with
  | nil => cases hmem
  | cons hd tl ih =>
    obtain ⟨k', v'⟩ := hd
    simp only [Raw.stringKeyedMap, Bool.and_eq_true] at h
    rcases List.mem_cons.mp hmem with h1 | h1
    · cases h1
      exact h.1
    · exact ih h.2 h1

theorem format_str_key (F : Fmt) (k : Scalar) (h : k.isStr = true) :
    Scalar.str (k.format F) = k := by
  cases k <;> simp_all [Scalar.isStr, Scalar.format]

theorem nodup_format_of_stringKeyed (F : Fmt) (m : List (Scalar × Raw))
    (hd : keysDistinct m = true) (hs : Raw.stringKeyedMap m = true) :
    (m.map fun kv => kv.1.format F).Nodup := by
  induction m with
  | nil => exact List.nodup_nil
  | cons hd' tl ih =>
    obtain ⟨k, v⟩ := hd'
    simp only [keysDistinct, Bool.and_eq_true, List.all_eq_true, Bool.not_eq_true'] at hd
    have hs2 := hs
    simp only [Raw.stringKeyedMap, Bool.and_eq_true] at hs2
    simp only [List.map_cons, List.nodup_cons]
    refine ⟨?_, ih hd.2 hs2.2⟩
    intro hmem
    obtain ⟨kv, hkv, hf⟩ := List.mem_map.mp hmem
    have hk1 := format_str_key F k hs2.1.1
    have hk2 := format_str_key F kv.1 (stringKeyed_of_mem hs2.2 hkv).1
    have heq : k = kv.1 := by
      rw [← hk1, ← hk2, hf]
    have hne := hd.1 kv hkv
    rw [← heq] at hne
    rw [← hk1] at hne
    simp [Scalar.goEq] at hne

theorem map_str_format_of_stringKeyed (F : Fmt) (m : List (Scalar × Raw))
    (hs : Raw.stringKeyedMap m = true) :
    (m.map fun kv => (Scalar.str (kv.1.format F), kv.2)) = m := by
  induction m with
  | nil => rfl
  | cons hd tl ih =>
    obtain ⟨k, v⟩ := hd
    simp only [Raw.stringKeyedMap, Bool.and_eq_true] at hs
    simp only [List.map_cons, ih hs.2, format_str_key F k hs.1.1]

/-- Reading a stored string-keyed mapping back: the keys of `convertMap m`
as string scalars, with the values, are the bindings of `m`. -/
theorem convertMap_read_back (F : Fmt) (m : List (Scalar × Raw))
    (hd : keysDistinct m = true) (hs : Raw.stringKeyedMap m = true) :
    ((convertMap F m).map fun kv => (Scalar.str kv.1, kv.2)) = m := by
  rw [convertMap_of_nodup F m (nodup_format_of_stringKeyed F m hd hs), List.map_map]
  exact map_str_format_of_stringKeyed F m hs

theorem list_map_eq_of_mem {α β : Type} (f g : α → β) (l : List α)
    (h : ∀ x ∈ l, f x = g x) : l.map f = l.map g :=
  List.map_congr_left h

theorem finalFuel_toRaw (F : Fmt) (n : Nat) (base override : HelmValues)
    (hn : hvDepth override < n) (hnd : (override.map Prod.fst).Nodup)
    (hs : ∀ kv ∈ override, kv.2.stringKeyed = true) :
    FVal.toRawMap (finalFuel F n base override []) =
      override.map fun kv => (Scalar.str kv.1, kv.2) := by
  induction n generalizing base override with
  | zero => omega
  | succ n ih =>
    rw [finalFuel_empty F n base override hnd, toRawMap_eq_map, List.map_map]
    apply list_map_eq_of_mem
    intro kv hkv
    obtain ⟨k, v⟩ := kv
    have hv := hs (k, v) hkv
    simp only [Function.comp]
    congr 1
    cases v with
    | scalar s => rfl
    | seq xs => rfl
    | map m =>
      simp only [Raw.stringKeyed, Bool.and_eq_true] at hv
      have hback := convertMap_read_back F m hv.1 hv.2
      simp only [entryValue]
      split
      · rename_i bm hbm
        simp only [FVal.toRaw]
        rw [ih (convertMap F bm) (convertMap F m) (hvDepth_convertMap_lt hkv hn)
          (nodup_keys_convertMap F m)
          (fun kv2 hkv2 => by
            obtain ⟨k2, hk2, _⟩ := mem_convertMap F m kv2 hkv2
            exact (stringKeyed_of_mem hv.2 hk2).2), hback]
      · simp only [FVal.ofHelm, FVal.toRaw, toRawMap_eq_map, List.map_map]
        exact congrArg Raw.map hback

/-! ## From a log key back to the final tree -/

theorem noDot_iff (s : String) : noDot s = true ↔ '.' ∉ s.data := by
  simp only [noDot, List.all_eq_true, bne_iff_ne, ne_eq]
  constructor
  · intro h hmem
    exact h '.' hmem rfl
  · intro h c hc heq
    exact h (heq ▸ hc)

theorem splitDotsChars_append (a t : List Char) (ha : '.' ∉ a) :
    splitDotsChars (a ++ '.' :: t) = a :: splitDotsChars t := by
  induction a with
  | nil => simp [splitDotsChars]
  | cons c cs ih =>
    have hc : c ≠ '.' := fun h => ha (by simp [h])
    have hcs : '.' ∉ cs := fun h => ha (List.mem_cons_of_mem _ h)
    have hstep : splitDotsChars (c :: (cs ++ '.' :: t)) =
        match splitDotsChars (cs ++ '.' :: t) with
        | [] => [[c]]
        | hd :: tl => (c :: hd) :: tl := by
      simp only [splitDotsChars, hc, if_false]
    rw [List.cons_append, hstep, ih hcs]

theorem splitDotsChars_single (a : List Char) (ha : '.' ∉ a) : splitDotsChars a = [a] := by
  induction a with
  | nil => rfl
  | cons c cs ih =>
    have hc : c ≠ '.' := fun h => ha (by simp [h])
    have hcs : '.' ∉ cs := fun h => ha (List.mem_cons_of_mem _ h)
    simp only [splitDotsChars, hc, if_false, ih hcs]

theorem dotJoin_cons_cons (a b : String) (rest : List String) :
    dotJoin (a :: b :: rest) = a ++ "." ++ dotJoin (b :: rest) := by
  simp only [dotJoin, String.intercalate, intercalate_go_eq, List.foldl_cons]
  exact foldl_dot_shift rest (a ++ ".") b

/-- Splitting the dot-joined segments gives the segments back, when no segment
has a dot. -/
theorem splitDots_dotJoin (segs : List String) (hne : segs ≠ [])
    (hdot : ∀ s ∈ segs, noDot s = true) : splitDots (dotJoin segs) = segs := by
  induction segs with
  | nil => exact absurd rfl hne
  | cons a rest ih =>
    have ha : '.' ∉ a.data := (noDot_iff a).mp (hdot a (List.mem_cons_self _ _))
    cases rest with
    | nil =>
      simp only [splitDots, dotJoin, String.intercalate, String.intercalate.go,
        splitDotsChars_single a.data ha, List.map_cons, List.map_nil]
    | cons b rest2 =>
      have ih2 := ih (by simp) (fun s hs => hdot s (List.mem_cons_of_mem _ hs))
      simp only [splitDots] at ih2 ⊢
      rw [dotJoin_cons_cons]
      simp only [String.data_append, List.append_assoc]
      rw [List.singleton_append, splitDotsChars_append a.data _ ha, List.map_cons, ih2]

theorem dropLeading_pathKey (segs : List String) (hne : segs ≠ []) :
    dropLeading (pathKey segs) = dotJoin segs := by
  have h : pathKey segs = "" ++ "." ++ dotJoin segs := pathFrom_eq_dotJoin "" segs hne
  rw [h]
  apply String.ext
  simp [dropLeading, String.data_append]

theorem dotFree_of_mem {F : Fmt} {m : List (Scalar × Raw)} {k : Scalar} {v : Raw}
    (h : Raw.dotFreeMap F m = true) (hmem : (k, v) ∈ m) :
    noDot (k.format F) = true ∧ Raw.dotFree F v = true := by
  induction m with
  | nil => cases hmem
  | cons hd tl ih =>
    obtain ⟨k', v'⟩ := hd
    simp only [Raw.dotFreeMap, Bool.and_eq_true] at h
    rcases List.mem_cons.mp hmem with h1 | h1
    · cases h1
      exact h.1
    · exact ih h.2 h1

theorem dotFree_convertMap (F : Fmt) (m : List (Scalar × Raw))
    (h : Raw.dotFreeMap F m = true) :
    ∀ kv ∈ convertMap F m, noDot kv.1 = true ∧ Raw.dotFree F kv.2 = true := by
  intro kv hkv
  obtain ⟨k, hk, hf⟩ := mem_convertMap F m kv hkv
  rw [hf]
  exact dotFree_of_mem h hk

/-- Every entry a call from an empty final tree appends is keyed by the path
of a key sequence without dots, at which the override holds a value and the
final tree holds that value as stored. -/
theorem eventsFuel_resolves (F : Fmt) (n : Nat) (base override : HelmValues)
    (path filename : String) (hnd : (override.map Prod.fst).Nodup)
    (hdot : ∀ kv ∈ override, noDot kv.1 = true ∧ Raw.dotFree F kv.2 = true) :
    ∀ e ∈ eventsFuel F n base override path filename,
      ∃ segs, segs ≠ [] ∧ (∀ s ∈ segs, noDot s = true) ∧ e.1 = pathFrom path segs ∧
        ∃ w, rawGet F override segs = some w ∧
          getFinalValue (finalFuel F n base override []) segs = some (storedAs F w) := by
  induction n generalizing base override path with
  | zero =>
    intro e he
    cases he
  | succ n ih =>
    intro e he
    simp only [eventsFuel, List.mem_flatMap] at he
    obtain ⟨⟨k, v⟩, hkv, hev⟩ := he
    have hget : mapGet override k = some v := mapGet_of_mem_nodup hnd hkv
    have hfin : mapGet (finalFuel F (n + 1) base override []) k =
        some (entryValue (finalFuel F n) F base [] (k, v)) := by
      rw [finalFuel_empty F n base override hnd,
        mapGet_map_entry (fun kv => entryValue (finalFuel F n) F base [] kv) override k, hget]
      rfl
    have hk := hdot (k, v) hkv
    rcases entryEvents_mem (eventsFuel F n) F base path filename k v e hev with
      ⟨h, hno⟩ | ⟨bm, vm, hv, hbm, h⟩
    · refine ⟨[k], by simp, ?_, h, v, ?_, ?_⟩
      · intro s hs
        rw [List.mem_singleton.mp hs]
        exact hk.1
      · simpa [rawGet] using hget
      · simp only [getFinalValue, hfin]
        cases v with
        | scalar s => rfl
        | seq xs => rfl
        | map vm =>
          have hb : ∀ bm, mapGet base k ≠ some (.map bm) := fun bm hb => hno bm vm ⟨rfl, hb⟩
          simp only [entryValue, storedAs]
    · subst hv
      have hkd : Raw.dotFreeMap F vm = true := by
        simpa [Raw.dotFree] using hk.2
      obtain ⟨segs, hne, hsd, hkey, w, hraw, hfv⟩ :=
        ih (convertMap F bm) (convertMap F vm) (path ++ "." ++ k) (nodup_keys_convertMap F vm)
          (dotFree_convertMap F vm hkd) e h
      obtain ⟨s2, rest2, rfl⟩ := List.exists_cons_of_ne_nil hne
      refine ⟨k :: s2 :: rest2, by simp, ?_, hkey, w, ?_, ?_⟩
      · intro s hs
        rcases List.mem_cons.mp hs with h1 | h1
        · rw [h1]
          exact hk.1
        · exact hsd s h1
      · simpa [rawGet, hget] using hraw
      · rw [getFinalValue_cons_cons, hfin]
        simp only [entryValue, hbm]
        exact hfv

/-! ## What the resolver finds -/

theorem walkFinal_cons_helm (F : Fmt) (final m : FinalValues) (s s2 : String)
    (rest : List String) (h : mapGet final s = some (.helm m)) :
    walkFinal F final (s :: s2 :: rest) = walkFinal F m (s2 :: rest) := by
  simp only [walkFinal, h, mappingOf]

/-- The walk through the nested mappings reaches what `getFinalValue` finds
when every value on the way is a `HelmValues`. -/
theorem getFinalValue_of_walkFinal (F : Fmt) (final : FinalValues) (segs : List String)
    (v : FVal) (hw : walkFinal F final segs = some v)
    (hh : ∀ pre s post, segs = pre ++ s :: post → post ≠ [] →
      ∃ m, walkFinal F final (pre ++ [s]) = some (.helm m)) :
    getFinalValue final segs = some v := by
  induction segs generalizing final with
  | nil => simp [walkFinal] at hw
  | cons s rest ih =>
    cases rest with
    | nil => simpa [getFinalValue, walkFinal] using hw
    | cons s2 rest2 =>
      obtain ⟨m, hm⟩ := hh [] s (s2 :: rest2) rfl (by simp)
      have hget : mapGet final s = some (.helm m) := by
        simpa [walkFinal] using hm
      rw [getFinalValue_cons_cons, hget]
      rw [walkFinal_cons_helm F final m s s2 rest2 hget] at hw
      apply ih m hw
      intro pre t post hsegs hpost
      have h2 := hh (s :: pre) t post (by rw [hsegs]; rfl) hpost
      cases pre with
      | nil =>
        rw [List.cons_append, List.nil_append, walkFinal_cons_helm F final m s t [] hget] at h2
        exact h2
      | cons p pre2 =>
        rw [List.cons_append, List.cons_append,
          walkFinal_cons_helm F final m s p (pre2 ++ [t]) hget] at h2
        exact h2

/-- Below a subtree stored through `convertMap`, the resolver finds the first
level and nothing deeper. -/
theorem getFinalValue_stored (F : Fmt) (final : FinalValues) (k : String)
    (m : List (Scalar × Raw)) (h : mapGet final k = some (FVal.ofHelm (convertMap F m)))
    (k2 : String) :
    getFinalValue final [k, k2] = (mapGet (convertMap F m) k2).map FVal.raw ∧
    ∀ k3 rest, getFinalValue final (k :: k2 :: k3 :: rest) = none := by
  have hnext := mapGet_map_entry (fun kv : String × Raw => FVal.raw kv.2) (convertMap F m) k2
  simp only [FVal.ofHelm] at h
  refine ⟨?_, ?_⟩
  · rw [getFinalValue_cons_cons, h]
    simp only [getFinalValue]
    exact hnext
  · intro k3 rest
    rw [getFinalValue_cons_cons, h]
    simp only [getFinalValue_cons_cons, hnext]
    cases mapGet (convertMap F m) k2 <;> rfl

/-! ## Claims

What the loop does for one key is stated for a one-key override, from an
arbitrary log and an arbitrary final tree; by `mergeValues_at_key` every key
of a larger override is handled as such a call from the state reached. -/

/-- C1 (as amended): for every base document without NaN (and with pairwise
distinct keys in every mapping, as Go maps have), merging the base with
itself as override, the keys visited in the same order, from the root path
`""`, an empty log and an empty final tree, appends no entry at all, and the
final tree agrees with the base at every path: nothing where the base has
nothing, the same scalar or sequence where the base has one, and a mapping
where the base has a mapping. -/
theorem C1_self_merge (F : Fmt) (base : HelmValues) (filename : String)
    (hnd : (base.map Prod.fst).Nodup) (hreg : ∀ kv ∈ base, kv.2.regular = true) :
    (mergeValues F base base "" [] [] filename).1 = [] ∧
    ∀ segs : List String,
      Agrees (getFinalValue (mergeValues F base base "" [] [] filename).2 segs)
        (rawGet F base segs) := by
  simp only [mergeValues, mergeFuel_split]
  refine ⟨?_, ?_⟩
  · rw [eventsFuel_self F _ base "" filename hnd hreg]
    rfl
  · intro segs
    exact finalFuel_self_agrees F _ base hnd (Nat.lt_succ_self _) segs

/-- Witness for C1: the base `a: {x: 1, y: 2}` merged with itself. -/
theorem C1_self_merge_witness :
    (mergeValues Fmt.plain scenarioBase scenarioBase "" [] [] "o.yaml").1 = [] ∧
    Agrees (getFinalValue (mergeValues Fmt.plain scenarioBase scenarioBase "" [] []
        "o.yaml").2 ["a", "x"]) (rawGet Fmt.plain scenarioBase ["a", "x"]) :=
  ⟨(C1_self_merge Fmt.plain scenarioBase "o.yaml" (by decide)
      (fun kv hkv => by
        rw [List.mem_singleton.mp hkv]
        rfl)).1,
    (C1_self_merge Fmt.plain scenarioBase "o.yaml" (by decide)
      (fun kv hkv => by
        rw [List.mem_singleton.mp hkv]
        rfl)).2 ["a", "x"]⟩

/-- C1 fails as stated, in both halves.  The base `a: .nan` merged with itself
gets one entry, since NaN differs from NaN.  The base `a: {1: x}` merged with
itself gets no entry, but the final tree is `a: {"1": x}` with `a` a
`HelmValues`, which `reflect.DeepEqual` tells apart from the base.  And the
base `a: {1: x, "1": y}` merged with the same document visited in another
order, deep-equal to it, gets an entry, since `convertMap` keeps one of the
two keys rendered `1`. -/
theorem C1_counterexample :
    (mergeValues Fmt.plain nanBase nanBase "" [] [] "o.yaml").1 =
      [(".a", ["Base value: NaN, Override value: NaN (o.yaml)"])] ∧
    mergeValues Fmt.plain intKeyBase intKeyBase "" [] [] "o.yaml" =
      ([], [("a", .helm [("1", .raw (.scalar (.str "x")))])]) ∧
    FVal.deepEqual (.helm (mergeValues Fmt.plain intKeyBase intKeyBase "" [] [] "o.yaml").2)
      (FVal.ofHelm intKeyBase) = false ∧
    FVal.deepEqual (FVal.ofHelm collidingBase) (FVal.ofHelm collidingOverride) = true ∧
    (mergeValues Fmt.plain collidingBase collidingOverride "" [] [] "o.yaml").1 =
      [(".a.1", ["Base value: y, Override value: x (o.yaml)"])] :=
  ⟨by decide, rfl, rfl, rfl, by decide⟩

/-- C2: the end-to-end scenario.  With base `a: {x: 1, y: 2}`, folding
`a: {x: 5}` from `o1.yaml` and then `a: {z: 9}` from `o2.yaml` against that
base, from an empty log and an empty final tree, whatever the renderer: the
log is exactly the two paths `.a.x` and `.a.z`; the path of segments a, x has
the one entry "Base value: 1, Override value: 5 (o1.yaml)" and `getFinalValue`
on [a, x] finds 5; the path of segments a, z has the one entry
"New value: 9 (o2.yaml)" and `getFinalValue` on [a, z] finds 9; the path of
segments a, y has no entry. -/
theorem C2_end_to_end_scenario (F : Fmt) :
    (mergeAll F scenarioBase
        [("o1.yaml", scenarioOverride1), ("o2.yaml", scenarioOverride2)] ([], [])).1 =
      [(".a.x", ["Base value: 1, Override value: 5 (o1.yaml)"]),
        (".a.z", ["New value: 9 (o2.yaml)"])] ∧
    entriesFor (mergeAll F scenarioBase
        [("o1.yaml", scenarioOverride1), ("o2.yaml", scenarioOverride2)] ([], [])).1
        (pathKey ["a", "x"]) = ["Base value: 1, Override value: 5 (o1.yaml)"] ∧
    getFinalValue (mergeAll F scenarioBase
        [("o1.yaml", scenarioOverride1), ("o2.yaml", scenarioOverride2)] ([], [])).2
        ["a", "x"] = some (.raw (.scalar (.int 5))) ∧
    entriesFor (mergeAll F scenarioBase
        [("o1.yaml", scenarioOverride1), ("o2.yaml", scenarioOverride2)] ([], [])).1
        (pathKey ["a", "z"]) = ["New value: 9 (o2.yaml)"] ∧
    getFinalValue (mergeAll F scenarioBase
        [("o1.yaml", scenarioOverride1), ("o2.yaml", scenarioOverride2)] ([], [])).2
        ["a", "z"] = some (.raw (.scalar (.int 9))) ∧
    entriesFor (mergeAll F scenarioBase
        [("o1.yaml", scenarioOverride1), ("o2.yaml", scenarioOverride2)] ([], [])).1
        (pathKey ["a", "y"]) = [] :=
  ⟨rfl, rfl, rfl, rfl, rfl, rfl⟩

/-- C3 (as amended): a key `k` of the override holding a scalar `v`, absent
from the base, in one call started on an empty log.  The "New value: v
(source)" entry is recorded at the path of `k` and `final[k]` is `v`; when `k`
contains no dot, that entry is the only entry at the path of `k`. -/
theorem C3_new_scalar_key (F : Fmt) (base override : HelmValues) (k : String) (v : Scalar)
    (path : String) (final : FinalValues) (filename : String)
    (hnd : (override.map Prod.fst).Nodup) (hmem : (k, Raw.scalar v) ∈ override)
    (hb : mapGet base k = none) :
    ("New value: " ++ v.format F ++ " (" ++ filename ++ ")") ∈
        entriesFor (mergeValues F base override path [] final filename).1 (path ++ "." ++ k) ∧
    mapGet (mergeValues F base override path [] final filename).2 k =
        some (.raw (.scalar v)) ∧
    ('.' ∉ k.data →
      entriesFor (mergeValues F base override path [] final filename).1 (path ++ "." ++ k) =
        ["New value: " ++ v.format F ++ " (" ++ filename ++ ")"]) := by
  have hev : entryEvents (eventsFuel F (hvDepth override)) F base path filename
      (k, Raw.scalar v) = [(path ++ "." ++ k, newValueText F v filename)] := by
    simp only [entryEvents, hb]
  refine ⟨?_, ?_, ?_⟩
  · simp only [mergeValues, mergeFuel_split, entriesFor_applyEvents, entriesFor_nil,
      List.nil_append, List.mem_map, List.mem_filter, eventsFuel, List.mem_flatMap]
    refine ⟨(path ++ "." ++ k, newValueText F v filename), ⟨⟨(k, Raw.scalar v), hmem, ?_⟩, ?_⟩, rfl⟩
    · rw [hev]
      exact List.mem_singleton_self _
    · simp
  · rw [mergeValues_final_get F base override path [] final filename k _ hnd hmem]
    rfl
  · intro hdot
    simp only [mergeValues, mergeFuel_split, entriesFor_applyEvents, entriesFor_nil,
      List.nil_append]
    rw [events_filter_key F _ base override path filename k _ hnd hmem hdot, hev]
    simp [newValueText]

/-- Witness for C3: base `a: 1`, override `b: 2`. -/
theorem C3_new_scalar_key_witness :
    entriesFor (mergeValues Fmt.plain [("a", .scalar (.int 1))] [("b", .scalar (.int 2))] ""
        [] [] "o.yaml").1 ("" ++ "." ++ "b") = ["New value: 2 (o.yaml)"] :=
  (C3_new_scalar_key Fmt.plain [("a", .scalar (.int 1))] [("b", .scalar (.int 2))] "b"
    (.int 2) "" [] "o.yaml" (by decide) (List.mem_singleton_self _) rfl).2.2 (by decide)

/-- C3 fails as stated: with base `a: {}` and the override
`{"a.b": 1, a: {b: 2}}`, the scalar key `a.b` is absent from the base, yet its
path `.a.b` holds two entries after one call from an empty log. -/
theorem C3_counterexample :
    (([("a.b", Raw.scalar (.int 1)), ("a", Raw.map [(.str "b", .scalar (.int 2))])] :
        HelmValues).map Prod.fst).Nodup ∧
    mapGet ([("a", Raw.map [])] : HelmValues) "a.b" = none ∧
    entriesFor (mergeValues Fmt.plain [("a", .map [])]
        [("a.b", .scalar (.int 1)), ("a", .map [(.str "b", .scalar (.int 2))])] ""
        [] [] "o.yaml").1 ("" ++ "." ++ "a.b") =
      ["New value: 1 (o.yaml)", "New value: 2 (o.yaml)"] :=
  ⟨by decide, rfl, rfl⟩

/-- C4: where the base and the override both hold a mapping at `k`,
`mergeValues` recurses.  Merging the one-key override `{k: m}` at path `p`
gives the log of merging `convertMap m` against `convertMap base[k]` at path
`p.k` into the mapping the final tree holds at `k`; every path whose entries
change is `p.k`, a dot, a key of `m` and possibly more, and the entries of
`p.k` itself do not change. -/
theorem C4_nested_mapping_recurses (F : Fmt) (base : HelmValues) (k : String)
    (bm m : List (Scalar × Raw)) (path : String) (hist : History) (final : FinalValues)
    (filename : String) (hb : mapGet base k = some (.map bm)) :
    mergeValues F base [(k, .map m)] path hist final filename =
      ((mergeValues F (convertMap F bm) (convertMap F m) (path ++ "." ++ k) hist
          (subFinal final k) filename).1,
        mapSet final k (.helm (mergeValues F (convertMap F bm) (convertMap F m)
          (path ++ "." ++ k) hist (subFinal final k) filename).2)) ∧
    (∀ q, entriesFor (mergeValues F base [(k, .map m)] path hist final filename).1 q ≠
        entriesFor hist q →
      ∃ kv ∈ convertMap F m, ∃ rest : String, q = path ++ "." ++ k ++ "." ++ kv.1 ++ rest) ∧
    entriesFor (mergeValues F base [(k, .map m)] path hist final filename).1
        (path ++ "." ++ k) = entriesFor hist (path ++ "." ++ k) := by
  have h1 : mergeValues F base [(k, .map m)] path hist final filename =
      ((mergeValues F (convertMap F bm) (convertMap F m) (path ++ "." ++ k) hist
          (subFinal final k) filename).1,
        mapSet final k (.helm (mergeValues F (convertMap F bm) (convertMap F m)
          (path ++ "." ++ k) hist (subFinal final k) filename).2)) := by
    rw [mergeValues_single]
    simp only [mergeEntry, hb]
  have h2 : ∀ q, entriesFor (mergeValues F base [(k, .map m)] path hist final filename).1 q ≠
        entriesFor hist q →
      ∃ kv ∈ convertMap F m, ∃ rest : String,
        q = path ++ "." ++ k ++ "." ++ kv.1 ++ rest := by
    intro q hq
    rw [h1] at hq
    obtain ⟨kv, hkv, suffix, hkey, _⟩ :=
      entriesFor_mergeValues_changed F _ _ _ hist _ filename q hq
    exact ⟨kv, hkv, suffix, hkey⟩
  refine ⟨h1, h2, ?_⟩
  by_contra hne
  obtain ⟨kv, _, rest, hkey⟩ := h2 _ hne
  exact string_ne_append_dot _ _ _ hkey

/-- Witness for C4: base `a: {b: {c: 1}}` and override `a: {b: {c: 2}}`. -/
theorem C4_nested_mapping_recurses_witness :
    entriesFor (mergeValues Fmt.plain
        [("b", .map [(.str "c", .scalar (.int 1))])]
        [("b", .map [(.str "c", .scalar (.int 2))])] ".a" [] [] "o.yaml").1 (".a" ++ "." ++ "b") =
      entriesFor [] (".a" ++ "." ++ "b") :=
  (C4_nested_mapping_recurses Fmt.plain [("b", .map [(.str "c", .scalar (.int 1))])] "b"
    [(.str "c", .scalar (.int 1))] [(.str "c", .scalar (.int 2))] ".a" [] [] "o.yaml" rfl).2.2

/-- C5: an override key `k` holding a sequence `v`.  `final[k]` becomes
exactly `v`, in a one-key override and in any override that has `k` among its
keys.  Let `added` be what the one-key call appends at the path of `k`: it is
the one "Base list ..., Override list ..." entry if and only if `base[k]` is a
sequence that `reflect.DeepEqual` tells apart from `v`; it is the one
"New list" entry if and only if `base[k]` is not a sequence (absent or of
another kind); it is empty if and only if `base[k]` is a sequence deep-equal
to `v`.  No other path changes. -/
theorem C5_sequence_replaced (F : Fmt) (base : HelmValues) (k : String) (v : List Raw)
    (path : String) (hist : History) (final : FinalValues) (filename : String)
    (added : List String)
    (hadd : entriesFor (mergeValues F base [(k, .seq v)] path hist final filename).1
        (path ++ "." ++ k) = entriesFor hist (path ++ "." ++ k) ++ added) :
    (mergeValues F base [(k, .seq v)] path hist final filename).2 =
        mapSet final k (.raw (.seq v)) ∧
    (∀ override : HelmValues, (override.map Prod.fst).Nodup → (k, Raw.seq v) ∈ override →
      mapGet (mergeValues F base override path hist final filename).2 k =
        some (.raw (.seq v))) ∧
    ((∃ b, mapGet base k = some (.seq b) ∧ added = [listChangedText F b v filename]) ↔
      ∃ b, mapGet base k = some (.seq b) ∧ Raw.deepEqual (.seq b) (.seq v) = false) ∧
    (added = [newListText F v filename] ↔ ∀ b, mapGet base k ≠ some (.seq b)) ∧
    (added = [] ↔ ∃ b, mapGet base k = some (.seq b) ∧ Raw.deepEqual (.seq b) (.seq v) = true) ∧
    (∀ q, q ≠ path ++ "." ++ k →
      entriesFor (mergeValues F base [(k, .seq v)] path hist final filename).1 q =
        entriesFor hist q) := by
  rw [mergeValues_single] at hadd ⊢
  refine ⟨rfl, ?_, ?_⟩
  · intro override hnd hmem
    rw [mergeValues_final_get F base override path hist final filename k _ hnd hmem]
    rfl
  · cases hbk : mapGet base k with
    | none =>
      simp only [mergeEntry, hbk, entriesFor_appendEntry_same] at hadd ⊢
      have ha : added = [newListText F v filename] := (List.append_cancel_left hadd).symm
      subst ha
      refine ⟨by simp, by simp, by simp, ?_⟩
      intro q hq
      exact entriesFor_appendEntry_ne _ _ _ _ (Ne.symm hq)
    | some bv =>
      cases bv with
      | scalar s =>
        simp only [mergeEntry, hbk, entriesFor_appendEntry_same] at hadd ⊢
        have ha : added = [newListText F v filename] := (List.append_cancel_left hadd).symm
        subst ha
        refine ⟨by simp, by simp, by simp, ?_⟩
        intro q hq
        exact entriesFor_appendEntry_ne _ _ _ _ (Ne.symm hq)
      | map bm =>
        simp only [mergeEntry, hbk, entriesFor_appendEntry_same] at hadd ⊢
        have ha : added = [newListText F v filename] := (List.append_cancel_left hadd).symm
        subst ha
        refine ⟨by simp, by simp, by simp, ?_⟩
        intro q hq
        exact entriesFor_appendEntry_ne _ _ _ _ (Ne.symm hq)
      | seq b =>
        by_cases hde : Raw.deepEqual (.seq b) (.seq v) = true
        · simp only [mergeEntry, hbk, hde] at hadd ⊢
          have ha : added = [] := by
            have := List.append_cancel_left (hadd.symm.trans (List.append_nil _).symm)
            exact this
          subst ha
          refine ⟨by simp [hde], by simp, by simp [hde], ?_⟩
          intro q _
          rfl
        · have hde2 : Raw.deepEqual (.seq b) (.seq v) = false := by
            simpa using hde
          simp only [mergeEntry, hbk, hde2, Bool.not_false, if_true, entriesFor_appendEntry_same] at hadd ⊢
          have ha : added = [listChangedText F b v filename] :=
            (List.append_cancel_left hadd).symm
          subst ha
          refine ⟨by simp [hde2], ?_, by simp [hde2], ?_⟩
          · simp [listChangedText_ne_newListText]
          · intro q hq
            exact entriesFor_appendEntry_ne _ _ _ _ (Ne.symm hq)

/-- Witness for C5: base list `[1, 2, 3]` and override list `[1, 2]` give the
final value `[1, 2]` and the one list-changed entry. -/
theorem C5_sequence_replaced_witness :
    (mergeValues Fmt.plain
        [("l", .seq [.scalar (.int 1), .scalar (.int 2), .scalar (.int 3)])]
        [("l", .seq [.scalar (.int 1), .scalar (.int 2)])] "" [] [] "o.yaml").2 =
      [("l", .raw (.seq [.scalar (.int 1), .scalar (.int 2)]))] ∧
    ∃ b, mapGet [("l", Raw.seq [.scalar (.int 1), .scalar (.int 2), .scalar (.int 3)])] "l" =
        some (.seq b) ∧
      ["Base list: [1 2 3], Override list: [1 2] (o.yaml)"] =
        [listChangedText Fmt.plain b [.scalar (.int 1), .scalar (.int 2)] "o.yaml"] :=
  ⟨(C5_sequence_replaced Fmt.plain
      [("l", .seq [.scalar (.int 1), .scalar (.int 2), .scalar (.int 3)])] "l"
      [.scalar (.int 1), .scalar (.int 2)] "" [] [] "o.yaml"
      ["Base list: [1 2 3], Override list: [1 2] (o.yaml)"] rfl).1,
    (C5_sequence_replaced Fmt.plain
      [("l", .seq [.scalar (.int 1), .scalar (.int 2), .scalar (.int 3)])] "l"
      [.scalar (.int 1), .scalar (.int 2)] "" [] [] "o.yaml"
      ["Base list: [1 2 3], Override list: [1 2] (o.yaml)"] rfl).2.2.1.mpr ⟨_, rfl, rfl⟩⟩

/-- C6: an override key `k` holding a scalar or null `v`, where the base has
the key `k` with value `b`.  `final[k]` becomes `v`, in a one-key override and
in any override that has `k` among its keys.  Let `added` be what the one-key
call appends at the path of `k`: it is the one
"Base value: b, Override value: v (source)" entry if and only if `b != v` in
Go, and it is empty if and only if `b == v`.  No other path changes. -/
theorem C6_scalar_against_base (F : Fmt) (base : HelmValues) (k : String) (b : Raw)
    (v : Scalar) (path : String) (hist : History) (final : FinalValues) (filename : String)
    (added : List String) (hb : mapGet base k = some b)
    (hadd : entriesFor (mergeValues F base [(k, .scalar v)] path hist final filename).1
        (path ++ "." ++ k) = entriesFor hist (path ++ "." ++ k) ++ added) :
    (mergeValues F base [(k, .scalar v)] path hist final filename).2 =
        mapSet final k (.raw (.scalar v)) ∧
    (∀ override : HelmValues, (override.map Prod.fst).Nodup → (k, Raw.scalar v) ∈ override →
      mapGet (mergeValues F base override path hist final filename).2 k =
        some (.raw (.scalar v))) ∧
    (added = [valueChangedText F b v filename] ↔ ifaceNe b v = true) ∧
    (added = [] ↔ ifaceNe b v = false) ∧
    (∀ q, q ≠ path ++ "." ++ k →
      entriesFor (mergeValues F base [(k, .scalar v)] path hist final filename).1 q =
        entriesFor hist q) := by
  rw [mergeValues_single] at hadd ⊢
  refine ⟨rfl, ?_, ?_⟩
  · intro override hnd hmem
    rw [mergeValues_final_get F base override path hist final filename k _ hnd hmem]
    rfl
  · by_cases hne : ifaceNe b v = true
    · simp only [mergeEntry, hb, hne, if_true, entriesFor_appendEntry_same] at hadd ⊢
      have ha : added = [valueChangedText F b v filename] :=
        (List.append_cancel_left hadd).symm
      subst ha
      refine ⟨by simp, by simp, ?_⟩
      intro q hq
      exact entriesFor_appendEntry_ne _ _ _ _ (Ne.symm hq)
    · have hne2 : ifaceNe b v = false := by
        simpa using hne
      simp only [mergeEntry, hb, hne2, Bool.false_eq_true, if_false] at hadd ⊢
      have ha : added = [] :=
        List.append_cancel_left (hadd.symm.trans (List.append_nil _).symm)
      subst ha
      refine ⟨by simp, by simp, ?_⟩
      intro q _
      trivial

/-- Witness for C6: base `a: 1`, override `a: 5`. -/
theorem C6_scalar_against_base_witness :
    ["Base value: 1, Override value: 5 (o.yaml)"] =
        [valueChangedText Fmt.plain (.scalar (.int 1)) (.int 5) "o.yaml"] ↔
      ifaceNe (.scalar (.int 1)) (.int 5) = true :=
  (C6_scalar_against_base Fmt.plain [("a", .scalar (.int 1))] "a" (.scalar (.int 1)) (.int 5)
    "" [] [] "o.yaml" ["Base value: 1, Override value: 5 (o.yaml)"] rfl rfl).2.2.1

/-- C7 (as amended): an override key `k` holding a mapping `m` where the base
has no mapping at `k` (absent, scalar or sequence).  `mergeValues` does not
recurse: the one-key call appends the single entry
"New map structure from <source>" at the path of `k`, changes no other path,
and stores `convertMap m` at `final[k]`; any override that has `k` among its
keys leaves the same value at `final[k]`.  The stored value is the whole of
`m` when the keys of `m` have pairwise distinct renderings: it then has one
binding per binding of `m`, the key rendered as a string and the value
untouched. -/
theorem C7_new_map_structure (F : Fmt) (base : HelmValues) (k : String)
    (m : List (Scalar × Raw)) (path : String) (hist : History) (final : FinalValues)
    (filename : String) (hb : ∀ bm, mapGet base k ≠ some (.map bm)) :
    mergeValues F base [(k, .map m)] path hist final filename =
      (appendEntry hist (path ++ "." ++ k) ("New map structure from " ++ filename),
        mapSet final k (FVal.ofHelm (convertMap F m))) ∧
    entriesFor (mergeValues F base [(k, .map m)] path hist final filename).1
        (path ++ "." ++ k) =
      entriesFor hist (path ++ "." ++ k) ++ ["New map structure from " ++ filename] ∧
    (∀ q, q ≠ path ++ "." ++ k →
      entriesFor (mergeValues F base [(k, .map m)] path hist final filename).1 q =
        entriesFor hist q) ∧
    (∀ override : HelmValues, (override.map Prod.fst).Nodup → (k, Raw.map m) ∈ override →
      mapGet (mergeValues F base override path hist final filename).2 k =
        some (FVal.ofHelm (convertMap F m))) ∧
    ((m.map fun kv => kv.1.format F).Nodup →
      FVal.ofHelm (convertMap F m) = .helm (m.map fun kv => (kv.1.format F, .raw kv.2))) := by
  have h1 : mergeValues F base [(k, .map m)] path hist final filename =
      (appendEntry hist (path ++ "." ++ k) ("New map structure from " ++ filename),
        mapSet final k (FVal.ofHelm (convertMap F m))) := by
    rw [mergeValues_single]
    simp only [mergeEntry]
    rfl
  refine ⟨h1, ?_, ?_, ?_, ?_⟩
  · rw [h1]
    exact entriesFor_appendEntry_same _ _ _
  · intro q hq
    rw [h1]
    exact entriesFor_appendEntry_ne _ _ _ _ (Ne.symm hq)
  · intro override hnd hmem
    rw [mergeValues_final_get F base override path hist final filename k _ hnd hmem]
    simp only [entryValue]
  · intro hnd
    rw [convertMap_of_nodup F m hnd]
    simp [FVal.ofHelm]

/-- Witness for C7: base `a: 1`, override `a: {x: {y: 2}}`; one entry, at
`.a`, and the subtree stored whole. -/
theorem C7_new_map_structure_witness :
    mergeValues Fmt.plain [("a", .scalar (.int 1))]
        [("a", .map [(.str "x", .map [(.str "y", .scalar (.int 2))])])] "" [] [] "o.yaml" =
      ([(".a", ["New map structure from o.yaml"])],
        [("a", .helm [("x", .raw (.map [(.str "y", .scalar (.int 2))]))])]) :=
  (C7_new_map_structure Fmt.plain [("a", .scalar (.int 1))] "a"
    [(.str "x", .map [(.str "y", .scalar (.int 2))])] "" [] [] "o.yaml"
    (fun _ h => by cases h)).1

/-- C7 fails as stated: with an empty base and the override
`a: {1: x, "1": y}`, the one entry is recorded, but the value stored at `a` has
the single binding `"1": y`; read back as a mapping it is not deep-equal to
the override's mapping, whose binding `1: x` is lost. -/
theorem C7_counterexample :
    mergeValues Fmt.plain [] collidingBase "" [] [] "o.yaml" =
      ([(".a", ["New map structure from o.yaml"])],
        [("a", .helm [("1", .raw (.scalar (.str "y")))])]) ∧
    Raw.deepEqual (FVal.toRaw (.helm [("1", .raw (.scalar (.str "y")))]))
      (.map [(.int 1, .scalar (.str "x")), (.str "1", .scalar (.str "y"))]) = false ∧
    lookupKey (.int 1) (FVal.toRawMap [("1", .raw (.scalar (.str "y")))]) = none :=
  ⟨rfl, rfl, rfl⟩

/-- C8 (as amended): the entries one call of `mergeValues` appends depend on
the base, the override, the path, the file name and the order in which the
keys of each mapping are visited, and on nothing else.  For any two starting
logs and any two starting final trees, two calls that visit the keys in the
same order append the same list of entries at any path, namely the entries
the call records from an empty log and an empty final tree.  In particular a
one-key override whose scalar equals (Go `==`) the scalar the base holds at
that key leaves the log as it was, whatever the final tree and the log hold
from earlier overrides. -/
theorem C8_delta_relative_to_base (F : Fmt) (base override : HelmValues) (path : String)
    (filename : String) (hist hist' : History) (final final' : FinalValues) (q : String) :
    (entriesFor (mergeValues F base override path hist final filename).1 q =
        entriesFor hist q ++ entriesFor (mergeValues F base override path [] [] filename).1 q ∧
      entriesFor (mergeValues F base override path hist' final' filename).1 q =
        entriesFor hist' q ++ entriesFor (mergeValues F base override path [] [] filename).1 q) ∧
    (∀ (k : String) (b v : Scalar), mapGet base k = some (.scalar b) → b.goEq v = true →
      (mergeValues F base [(k, .scalar v)] path hist final filename).1 = hist) := by
  refine ⟨⟨entriesFor_mergeValues F base override path hist final filename q,
    entriesFor_mergeValues F base override path hist' final' filename q⟩, ?_⟩
  intro k b v hb hgo
  simp [mergeValues_eq, mergeEntry, hb, ifaceNe, hgo]

/-- Witness for C8: the base holds `a: 1`, an earlier override set `a` to 5,
and an override setting `a` back to 1 leaves the log unchanged. -/
theorem C8_delta_relative_to_base_witness :
    (mergeValues Fmt.plain [("a", .scalar (.int 1))] [("a", .scalar (.int 1))] ""
        [(".a", ["Base value: 1, Override value: 5 (o1.yaml)"])]
        [("a", .raw (.scalar (.int 5)))] "o2.yaml").1 =
      [(".a", ["Base value: 1, Override value: 5 (o1.yaml)"])] :=
  (C8_delta_relative_to_base Fmt.plain [("a", .scalar (.int 1))] [] "" "o2.yaml"
    [(".a", ["Base value: 1, Override value: 5 (o1.yaml)"])] []
    [("a", .raw (.scalar (.int 5)))] [] "").2 "a" (.int 1) (.int 1) rfl rfl

/-- C8 fails as stated: the entries also depend on the order in which a
mapping is visited.  With base `a: {}`, the override `{"a.b": 1, a: {b: 2}}`
appends at `.a.b` the entry of 1 before the entry of 2 when `a.b` is visited
first and after it when `a` is visited first.  With base `a: {1: x, "1": y}`,
the same document as override appends nothing at `.a.1` in one order and an
entry in the other. -/
theorem C8_counterexample :
    FVal.deepEqual (FVal.ofHelm dottedOverride) (FVal.ofHelm dottedOverrideSwapped) = true ∧
    entriesFor (mergeValues Fmt.plain dottedBase dottedOverride "" [] [] "o.yaml").1 ".a.b" =
      ["New value: 1 (o.yaml)", "New value: 2 (o.yaml)"] ∧
    entriesFor (mergeValues Fmt.plain dottedBase dottedOverrideSwapped "" [] []
        "o.yaml").1 ".a.b" =
      ["New value: 2 (o.yaml)", "New value: 1 (o.yaml)"] ∧
    FVal.deepEqual (FVal.ofHelm collidingBase) (FVal.ofHelm collidingOverride) = true ∧
    entriesFor (mergeValues Fmt.plain collidingBase collidingBase "" [] [] "o.yaml").1
      ".a.1" = [] ∧
    entriesFor (mergeValues Fmt.plain collidingBase collidingOverride "" [] [] "o.yaml").1
      ".a.1" = ["Base value: y, Override value: x (o.yaml)"] :=
  ⟨rfl, by decide, by decide, rfl, by decide, by decide⟩

/-- C9: the log is append-only.  For every call and every path the entries
recorded before the call are an initial segment of the entries after it; and
after folding a list of override files in order, the entries of a path are the
earlier entries followed by the entries of the first file, then those of the
second, and so on. -/
theorem C9_log_append_only (F : Fmt) (base override : HelmValues) (path : String)
    (hist : History) (final : FinalValues) (filename : String)
    (files : List (String × HelmValues)) (st : History × FinalValues) (q : String) :
    entriesFor hist q <+: entriesFor (mergeValues F base override path hist final filename).1 q ∧
    entriesFor (mergeAll F base files st).1 q =
      entriesFor st.1 q ++
        files.flatMap (fun fo => entriesFor (mergeValues F base fo.2 "" [] [] fo.1).1 q) :=
  ⟨⟨_, (entriesFor_mergeValues F base override path hist final filename q).symm⟩,
    entriesFor_mergeAll F base files st q⟩

/-- C10: every entry a call of `mergeValues` appends names the file passed to
the call.  At every path the entries after the call are the entries before it
followed by texts that each contain the file name, at the very end (new map
structure) or followed only by the closing bracket (the other four kinds), at
every depth of the recursion. -/
theorem C10_entries_name_source (F : Fmt) (base override : HelmValues) (path : String)
    (hist : History) (final : FinalValues) (filename : String) (q : String) :
    ∃ added, entriesFor (mergeValues F base override path hist final filename).1 q =
        entriesFor hist q ++ added ∧
      ∀ e ∈ added, ∃ before after,
        e = before ++ filename ++ after ∧ (after = "" ∨ after = ")") := by
  refine ⟨((eventsFuel F (hvDepth override + 1) base override path filename).filter
    fun e => decide (e.1 = q)).map Prod.snd, ?_, ?_⟩
  · simp only [mergeValues, mergeFuel_split, entriesFor_applyEvents]
  · intro e he
    simp only [List.mem_map, List.mem_filter] at he
    obtain ⟨ev, ⟨hev, _⟩, rfl⟩ := he
    exact eventsFuel_namesSource F _ base override path filename ev hev

/-- C11: the type of the override wins and no shape is rejected.  For every
base, every prior final tree and every key `k` of the override with value `v`,
the call returns with `final[k]` bound to a value of the kind of `v` (mapping,
sequence, or scalar/null), whatever `base[k]` and the prior `final[k]` were;
when `v` is a scalar or a sequence, `final[k]` is `v` itself. -/
theorem C11_override_type_wins (F : Fmt) (base override : HelmValues) (path : String)
    (hist : History) (final : FinalValues) (filename : String) (k : String) (v : Raw)
    (hnd : (override.map Prod.fst).Nodup) (hmem : (k, v) ∈ override) :
    ∃ fv, mapGet (mergeValues F base override path hist final filename).2 k = some fv ∧
      fv.kind = v.kind ∧ (v.kind ≠ .mapping → fv = .raw v) := by
  refine ⟨_, mergeValues_final_get F base override path hist final filename k v hnd hmem,
    ?_, ?_⟩
  · cases v with
    | scalar s => rfl
    | seq xs => rfl
    | map m =>
      simp only [entryValue]
      split <;> rfl
  · intro hk
    cases v with
    | scalar s => rfl
    | seq xs => rfl
    | map m => exact absurd rfl hk

/-- Witness for C11: the base holds a mapping at `a`, the prior final tree a
sequence, the override the scalar 5; the final tree ends with 5 at `a`. -/
theorem C11_override_type_wins_witness :
    ∃ fv, mapGet (mergeValues Fmt.plain [("a", .map [(.str "x", .scalar (.int 1))])]
        [("a", .scalar (.int 5))] "" [] [("a", .raw (.seq [.scalar (.int 1)]))] "o.yaml").2 "a" =
        some fv ∧
      fv.kind = (Raw.scalar (.int 5)).kind ∧
      ((Raw.scalar (.int 5)).kind ≠ .mapping → fv = .raw (.scalar (.int 5))) :=
  C11_override_type_wins Fmt.plain [("a", .map [(.str "x", .scalar (.int 1))])]
    [("a", .scalar (.int 5))] "" [] [("a", .raw (.seq [.scalar (.int 1)]))] "o.yaml" "a"
    (.scalar (.int 5)) (by decide) (List.mem_singleton_self _)

/-- C12: a key `j` that the override does not contain keeps its binding in the
final tree: after the call `final[j]` is present exactly when it was before,
with the same value, whether or not the base has the key `j`. -/
theorem C12_other_keys_untouched (F : Fmt) (base override : HelmValues) (path : String)
    (hist : History) (final : FinalValues) (filename : String) (j : String)
    (hj : ∀ kv ∈ override, kv.1 ≠ j) :
    mapGet (mergeValues F base override path hist final filename).2 j = mapGet final j := by
  simp only [mergeValues, mergeFuel_split, finalFuel]
  exact foldl_entryFinal_get_ne _ F base override final j hj

/-- Witness for C12: base `a: 1, b: 2`, override `a: 5`, prior final tree
`b: 7`; the binding of `b` stays 7. -/
theorem C12_other_keys_untouched_witness :
    mapGet (mergeValues Fmt.plain [("a", .scalar (.int 1)), ("b", .scalar (.int 2))]
        [("a", .scalar (.int 5))] "" [] [("b", .raw (.scalar (.int 7)))] "o.yaml").2 "b" =
      mapGet [("b", FVal.raw (.scalar (.int 7)))] "b" :=
  C12_other_keys_untouched Fmt.plain [("a", .scalar (.int 1)), ("b", .scalar (.int 2))]
    [("a", .scalar (.int 5))] "" [] [("b", .raw (.scalar (.int 7)))] "o.yaml" "b"
    (fun kv hkv => by
      rw [List.mem_singleton.mp hkv]
      decide)

/-- C13 (as amended): `mergeValues` writes override keys only and copies no
base value.  For every base and override (its keys distinct, as in a Go map),
one call started on an empty final tree leaves a final tree whose keys are
exactly the keys of the override, in order, so a key the override lacks is
absent from it, whether or not the base has it; and when every mapping of the
override outside sequences has string keys, the final tree with each
`HelmValues` read back as a mapping is the override document. -/
theorem C13_final_is_override (F : Fmt) (base override : HelmValues) (path : String)
    (hist : History) (filename : String) (hnd : (override.map Prod.fst).Nodup) :
    (mergeValues F base override path hist [] filename).2.map Prod.fst =
        override.map Prod.fst ∧
    (∀ j, (∀ kv ∈ override, kv.1 ≠ j) →
      mapGet (mergeValues F base override path hist [] filename).2 j = none) ∧
    ((∀ kv ∈ override, kv.2.stringKeyed = true) →
      FVal.toRaw (.helm (mergeValues F base override path hist [] filename).2) =
        .map (override.map fun kv => (Scalar.str kv.1, kv.2))) := by
  simp only [mergeValues, mergeFuel_split]
  refine ⟨?_, ?_, ?_⟩
  · rw [finalFuel_empty F _ base override hnd, List.map_map]
    rfl
  · intro j hj
    simp only [finalFuel]
    rw [foldl_entryFinal_get_ne _ F base override [] j hj]
    rfl
  · intro hs
    simp only [FVal.toRaw]
    rw [finalFuel_toRaw F _ base override (Nat.lt_succ_self _) hnd hs]

/-- Witness for C13: base `a: {x: 1, y: 2}` and override `a: {x: 5}`; the
final tree read back is the override, and it has no `y` under `a`. -/
theorem C13_final_is_override_witness :
    FVal.toRaw (.helm (mergeValues Fmt.plain scenarioBase scenarioOverride1 "" [] []
        "o1.yaml").2) =
      .map (scenarioOverride1.map fun kv => (Scalar.str kv.1, kv.2)) :=
  (C13_final_is_override Fmt.plain scenarioBase scenarioOverride1 "" [] "o1.yaml"
    (by decide)).2.2
    (fun kv hkv => by
      rw [List.mem_singleton.mp hkv]
      rfl)

/-- C13 fails as stated.  Override `a: {x: 5}` on an empty base leaves
`a` as a `HelmValues`, which `reflect.DeepEqual` tells apart from the
override's `map[interface{}]interface{}`.  Override `a: {1: x, "1": y}` leaves
only one binding under `a`, keyed by the string `1`, where the override has
two. -/
theorem C13_counterexample :
    (mergeValues Fmt.plain [] scenarioOverride1 "" [] [] "o1.yaml").2 =
      [("a", .helm [("x", .raw (.scalar (.int 5)))])] ∧
    FVal.deepEqual (.helm (mergeValues Fmt.plain [] scenarioOverride1 "" [] [] "o1.yaml").2)
      (FVal.ofHelm scenarioOverride1) = false ∧
    (mergeValues Fmt.plain [] collidingBase "" [] [] "o.yaml").2 =
      [("a", .helm [("1", .raw (.scalar (.str "y")))])] ∧
    FVal.deepEqual (.helm (mergeValues Fmt.plain [] collidingBase "" [] [] "o.yaml").2)
      (FVal.ofHelm collidingBase) = false :=
  ⟨rfl, rfl, rfl, rfl⟩

/-- C14: for every final tree and every path with something after the segment
`s`, if walking the path up to `s` reaches nothing, or reaches a scalar, null
or sequence, then `getFinalValue` on the whole path returns not-found. -/
theorem C14_not_found_below_non_mapping (F : Fmt) (final : FinalValues) (pre : List String)
    (s : String) (post : List String) (hpost : post ≠ [])
    (h : walkFinal F final (pre ++ [s]) = none ∨
      ∃ r, walkFinal F final (pre ++ [s]) = some (.raw r) ∧ r.kind ≠ .mapping) :
    getFinalValue final (pre ++ s :: post) = none := by
  rw [getFinalValue_append final pre s post hpost]
  cases hg : getFinalValue final (pre ++ [s]) with
  | none => rfl
  | some v =>
    cases v with
    | raw r => rfl
    | helm m =>
      have hw := walkFinal_of_getFinalValue F final _ _ hg
      rcases h with h | ⟨r, h, _⟩
      · rw [h] at hw
        cases hw
      · rw [h] at hw
        cases hw

/-- Witness for C14: in the final tree `a: 1` the path a, b is not found. -/
theorem C14_not_found_below_non_mapping_witness :
    getFinalValue [("a", .raw (.scalar (.int 1)))] ([] ++ "a" :: ["b"]) = none :=
  C14_not_found_below_non_mapping Fmt.plain [("a", .raw (.scalar (.int 1)))] [] "a" ["b"]
    (by simp) (Or.inr ⟨.scalar (.int 1), rfl, by decide⟩)

/-- C15 (as amended): for every final tree, those produced by `mergeValues`
included, and every path, `getFinalValue` finds `v` if and only if walking the
segments through the nested mappings reaches `v` and every segment but the
last names a `HelmValues`.  In a subtree that `mergeValues` stored whole as a
new substructure (the base having no mapping at `k`), the resolver finds the
subtree at `k` and the values of its first level, and nothing below, the
deeper mappings being kept as `map[interface{}]interface{}`. -/
theorem C15_resolver_walks_helm (F : Fmt) (final : FinalValues) (segs : List String)
    (v : FVal) :
    (getFinalValue final segs = some v ↔
      walkFinal F final segs = some v ∧
        ∀ pre s post, segs = pre ++ s :: post → post ≠ [] →
          ∃ m, walkFinal F final (pre ++ [s]) = some (.helm m)) ∧
    (∀ (base override : HelmValues) (path : String) (hist : History) (filename k : String)
        (m : List (Scalar × Raw)),
      (override.map Prod.fst).Nodup → (k, Raw.map m) ∈ override →
      (∀ bm, mapGet base k ≠ some (.map bm)) →
      getFinalValue (mergeValues F base override path hist final filename).2 [k] =
          some (FVal.ofHelm (convertMap F m)) ∧
        ∀ k2,
          getFinalValue (mergeValues F base override path hist final filename).2 [k, k2] =
              (mapGet (convertMap F m) k2).map FVal.raw ∧
            ∀ k3 rest,
              getFinalValue (mergeValues F base override path hist final filename).2
                (k :: k2 :: k3 :: rest) = none) := by
  refine ⟨⟨?_, ?_⟩, ?_⟩
  · intro hg
    refine ⟨walkFinal_of_getFinalValue F final segs v hg, ?_⟩
    intro pre s post hsegs hpost
    rw [hsegs, getFinalValue_append final pre s post hpost] at hg
    cases hp : getFinalValue final (pre ++ [s]) with
    | none => simp [hp] at hg
    | some w =>
      cases w with
      | raw r => simp [hp] at hg
      | helm m => exact ⟨m, walkFinal_of_getFinalValue F final _ _ hp⟩
  · rintro ⟨hw, hh⟩
    exact getFinalValue_of_walkFinal F final segs v hw hh
  · intro base override path hist filename k m hnd hmem hb
    have hget : mapGet (mergeValues F base override path hist final filename).2 k =
        some (FVal.ofHelm (convertMap F m)) := by
      rw [mergeValues_final_get F base override path hist final filename k _ hnd hmem]
      simp only [entryValue]
    refine ⟨by simpa [getFinalValue] using hget, ?_⟩
    intro k2
    exact getFinalValue_stored F _ k m hget k2

/-- Witness for C15: with an empty base and the override `a: {b: {c: 1}}`, the
path a, b is found and the path a, b, c is not. -/
theorem C15_resolver_walks_helm_witness :
    getFinalValue (mergeValues Fmt.plain [] deepOverride "" [] [] "o.yaml").2 ["a", "b"] =
        (mapGet (convertMap Fmt.plain [(.str "b", .map [(.str "c", .scalar (.int 1))])])
          "b").map FVal.raw ∧
    getFinalValue (mergeValues Fmt.plain [] deepOverride "" [] [] "o.yaml").2
      ("a" :: "b" :: "c" :: []) = none :=
  ⟨(((C15_resolver_walks_helm Fmt.plain [] [] (.raw (.scalar .null))).2 [] deepOverride ""
      [] "o.yaml" "a" [(.str "b", .map [(.str "c", .scalar (.int 1))])] (by decide)
      (List.mem_singleton_self _) (fun _ h => by cases h)).2 "b").1,
    (((C15_resolver_walks_helm Fmt.plain [] [] (.raw (.scalar .null))).2 [] deepOverride ""
      [] "o.yaml" "a" [(.str "b", .map [(.str "c", .scalar (.int 1))])] (by decide)
      (List.mem_singleton_self _) (fun _ h => by cases h)).2 "b").2 "c" []⟩

/-- C15 fails as stated: with an empty base and the override
`a: {b: {c: 1}}`, `mergeValues` stores the subtree under `a` through
`convertMap`, which leaves `b` a `map[interface{}]interface{}`; walking the
path a, b, c through the nested mappings of the final tree reaches 1, and
`getFinalValue` returns not-found. -/
theorem C15_counterexample :
    (mergeValues Fmt.plain [] deepOverride "" [] [] "o.yaml").2 =
      [("a", .helm [("b", .raw (.map [(.str "c", .scalar (.int 1))]))])] ∧
    walkFinal Fmt.plain (mergeValues Fmt.plain [] deepOverride "" [] [] "o.yaml").2
      ["a", "b", "c"] = some (.raw (.scalar (.int 1))) ∧
    getFinalValue (mergeValues Fmt.plain [] deepOverride "" [] [] "o.yaml").2
      ["a", "b", "c"] = none ∧
    getFinalValue (mergeValues Fmt.plain [] deepOverride "" [] [] "o.yaml").2
      ["a", "b"] = some (.raw (.map [(.str "c", .scalar (.int 1))])) :=
  ⟨rfl, rfl, rfl, rfl⟩

/-- C16 (as amended): for every raw mapping, `convertMap` returns a mapping
with string keys at its top level only: the keys are pairwise distinct and
each is the `%v` rendering of an input key, each value is the value of an
input binding with that key rendering, kept as it is, and the rendering of
every input key is bound.  Nested mappings inside the values keep their own
keys. -/
theorem C16_convertMap_top_level (F : Fmt) (m : List (Scalar × Raw)) :
    ((convertMap F m).map Prod.fst).Nodup ∧
    (∀ kv ∈ convertMap F m, ∃ k, (k, kv.2) ∈ m ∧ kv.1 = k.format F) ∧
    (∀ k v, (k, v) ∈ m →
      ∃ v', mapGet (convertMap F m) (k.format F) = some v' ∧
        ∃ k', (k', v') ∈ m ∧ k'.format F = k.format F) :=
  ⟨nodup_keys_convertMap F m, mem_convertMap F m,
    fun k v hmem => convertMap_key_bound F m k v hmem⟩

/-- C16 fails as stated: `convertMap` of `{1: {2: x}}` is `{"1": {2: x}}`; the
nested mapping is returned with its integer key 2, not with string keys. -/
theorem C16_counterexample :
    convertMap Fmt.plain intKeyNested = [("1", .map [(.int 2, .scalar (.str "x"))])] ∧
    ¬ ∀ kv ∈ convertMap Fmt.plain intKeyNested, kv.2.stringKeyed = true := by
  refine ⟨rfl, ?_⟩
  intro h
  exact absurd (h ("1", .map [(.int 2, .scalar (.str "x"))]) (List.mem_singleton_self _))
    (by decide)

/-- C17 (as amended): called with the root path `""`, `mergeValues` records
every entry under a dot followed by the dot-joined key sequence: each path
whose entries a call changes is `"." ++ s1 ++ "." ++ ... ++ sn` for a
non-empty key sequence `s1, ..., sn` of the override, which is the key the
code builds by appending `"." + k` at each level.  There is a leading
separator and no trailing one. -/
theorem C17_path_key_is_dotted (F : Fmt) (base override : HelmValues) (hist : History)
    (final : FinalValues) (filename : String) (q : String)
    (hq : entriesFor (mergeValues F base override "" hist final filename).1 q ≠
      entriesFor hist q) :
    ∃ segs, segs ≠ [] ∧ KeyChain F override segs ∧ q = pathKey segs ∧
      q = "." ++ dotJoin segs := by
  simp only [mergeValues, mergeFuel_split, entriesFor_applyEvents] at hq
  cases hf : (eventsFuel F (hvDepth override + 1) base override "" filename).filter
      (fun e => decide (e.1 = q)) with
  | nil =>
    rw [hf] at hq
    simp at hq
  | cons e rest =>
    have he : e ∈ (eventsFuel F (hvDepth override + 1) base override "" filename).filter
        (fun e => decide (e.1 = q)) := by
      rw [hf]
      exact List.mem_cons_self _ _
    simp only [List.mem_filter, decide_eq_true_eq] at he
    obtain ⟨segs, hchain, hkey⟩ := eventsFuel_chain F _ base override "" filename e he.1
    have hne := keyChain_ne_nil hchain
    refine ⟨segs, hne, hchain, ?_, ?_⟩
    · rw [← he.2, hkey]
      rfl
    · rw [← he.2, hkey, pathFrom_eq_dotJoin "" segs hne]
      simp

/-- Witness for C17: in the base `a: {x: 1, y: 2}` with override `a: {x: 5}`
the changed path `.a.x` is the dotted key sequence a, x. -/
theorem C17_path_key_is_dotted_witness :
    ∃ segs, segs ≠ [] ∧ KeyChain Fmt.plain scenarioOverride1 segs ∧ ".a.x" = pathKey segs ∧
      ".a.x" = "." ++ dotJoin segs :=
  C17_path_key_is_dotted Fmt.plain scenarioBase scenarioOverride1 [] [] "o1.yaml" ".a.x"
    (by decide)

/-- C17 fails as stated: the entry for the key sequence a, x of the scenario
is recorded under `.a.x`, with a leading separator, and nothing is recorded
under the dot-joined `a.x`. -/
theorem C17_counterexample :
    dotJoin ["a", "x"] = "a.x" ∧
    (mergeValues Fmt.plain scenarioBase scenarioOverride1 "" [] [] "o1.yaml").1 =
      [(".a.x", ["Base value: 1, Override value: 5 (o1.yaml)"])] ∧
    entriesFor (mergeValues Fmt.plain scenarioBase scenarioOverride1 "" [] [] "o1.yaml").1
      (dotJoin ["a", "x"]) = [] :=
  ⟨by decide, by decide, by decide⟩

/-- C18: from a log key back to the final tree.  For every base and every
override whose keys at all levels have no dot (and are distinct, as in a Go
map), after one call of `mergeValues` from the root path `""`, an empty log
and an empty final tree, every path that has an entry in the log, with its
leading dot removed and split on dots as `main` does, is found by
`getFinalValue`, and the value found is the value the override holds at those
segments: the scalar or sequence itself, or the mapping as `convertMap`
stores it. -/
theorem C18_log_key_resolves (F : Fmt) (base override : HelmValues) (filename : String)
    (q : String) (hnd : (override.map Prod.fst).Nodup)
    (hdot : ∀ kv ∈ override, noDot kv.1 = true ∧ Raw.dotFree F kv.2 = true)
    (hq : entriesFor (mergeValues F base override "" [] [] filename).1 q ≠ []) :
    ∃ w, rawGet F override (splitDots (dropLeading q)) = some w ∧
      getFinalValue (mergeValues F base override "" [] [] filename).2
        (splitDots (dropLeading q)) = some (storedAs F w) := by
  simp only [mergeValues, mergeFuel_split, entriesFor_applyEvents, entriesFor_nil,
    List.nil_append] at hq ⊢
  cases hf : (eventsFuel F (hvDepth override + 1) base override "" filename).filter
      (fun e => decide (e.1 = q)) with
  | nil =>
    rw [hf] at hq
    simp at hq
  | cons e rest =>
    have he : e ∈ (eventsFuel F (hvDepth override + 1) base override "" filename).filter
        (fun e => decide (e.1 = q)) := by
      rw [hf]
      exact List.mem_cons_self _ _
    simp only [List.mem_filter, decide_eq_true_eq] at he
    obtain ⟨segs, hne, hsd, hkey, w, hraw, hfv⟩ :=
      eventsFuel_resolves F _ base override "" filename hnd hdot e he.1
    have hsplit : splitDots (dropLeading q) = segs := by
      rw [← he.2, hkey]
      have hp : pathFrom "" segs = pathKey segs := rfl
      rw [hp, dropLeading_pathKey segs hne]
      exact splitDots_dotJoin segs hne hsd
    rw [hsplit]
    exact ⟨w, hraw, hfv⟩

/-- Witness for C18: base `a: {x: 1, y: 2}`, override `a: {x: 5}`; the log key
`.a.x` resolves to 5. -/
theorem C18_log_key_resolves_witness :
    ∃ w, rawGet Fmt.plain scenarioOverride1 (splitDots (dropLeading ".a.x")) = some w ∧
      getFinalValue (mergeValues Fmt.plain scenarioBase scenarioOverride1 "" [] []
        "o1.yaml").2 (splitDots (dropLeading ".a.x")) = some (storedAs Fmt.plain w) :=
  C18_log_key_resolves Fmt.plain scenarioBase scenarioOverride1 "o1.yaml" ".a.x" (by decide)
    (fun kv hkv => by
      rw [List.mem_singleton.mp hkv]
      exact ⟨by decide, by decide⟩)
    (by decide)

/-- C19 (as amended): applying an override a second time, its keys visited
in the same order as the first time, changes nothing in the final tree.  For
every base, override (its keys distinct, as in a Go map) and starting final
tree, a second call of `mergeValues` with the same base and override, on the
log and the final tree the first call left, leaves the final tree of the
first call; at every path the log has the entries the first call appended,
appended once more. -/
theorem C19_final_idempotent (F : Fmt) (base override : HelmValues) (path : String)
    (hist : History) (final : FinalValues) (filename : String)
    (hnd : (override.map Prod.fst).Nodup) :
    (mergeValues F base override path
        (mergeValues F base override path hist final filename).1
        (mergeValues F base override path hist final filename).2 filename).2 =
      (mergeValues F base override path hist final filename).2 ∧
    ∀ q, ∃ added,
      entriesFor (mergeValues F base override path hist final filename).1 q =
        entriesFor hist q ++ added ∧
      entriesFor (mergeValues F base override path
          (mergeValues F base override path hist final filename).1
          (mergeValues F base override path hist final filename).2 filename).1 q =
        entriesFor hist q ++ added ++ added := by
  refine ⟨?_, ?_⟩
  · simp only [mergeValues, mergeFuel_split]
    exact finalFuel_idempotent F _ base override final hnd
  · intro q
    refine ⟨entriesFor (mergeValues F base override path [] [] filename).1 q,
      entriesFor_mergeValues F base override path hist final filename q, ?_⟩
    rw [entriesFor_mergeValues F base override path _ _ filename q,
      entriesFor_mergeValues F base override path hist final filename q]

/-- Witness for C19: base `a: {x: 1}`, override `a: {x: 5}`, applied twice. -/
theorem C19_final_idempotent_witness :
    (mergeValues Fmt.plain scenarioBase scenarioOverride1 ""
        (mergeValues Fmt.plain scenarioBase scenarioOverride1 "" [] [] "o1.yaml").1
        (mergeValues Fmt.plain scenarioBase scenarioOverride1 "" [] [] "o1.yaml").2
        "o1.yaml").2 =
      (mergeValues Fmt.plain scenarioBase scenarioOverride1 "" [] [] "o1.yaml").2 :=
  (C19_final_idempotent Fmt.plain scenarioBase scenarioOverride1 "" [] [] "o1.yaml"
    (by decide)).1

/-- C19 fails as stated: the second call may visit a mapping in another
order.  With an empty base, the override `a: {1: x, "1": y}` leaves
`a: {"1": y}`; applied again with the nested mapping visited in the other
order it leaves `a: {"1": x}`, a different final tree. -/
theorem C19_counterexample :
    FVal.deepEqual (FVal.ofHelm collidingBase) (FVal.ofHelm collidingOverride) = true ∧
    (mergeValues Fmt.plain [] collidingBase "" [] [] "o.yaml").2 =
      [("a", .helm [("1", .raw (.scalar (.str "y")))])] ∧
    (mergeValues Fmt.plain [] collidingOverride ""
        (mergeValues Fmt.plain [] collidingBase "" [] [] "o.yaml").1
        (mergeValues Fmt.plain [] collidingBase "" [] [] "o.yaml").2 "o.yaml").2 =
      [("a", .helm [("1", .raw (.scalar (.str "x")))])] ∧
    FVal.deepEqual
      (.helm (mergeValues Fmt.plain [] collidingOverride ""
        (mergeValues Fmt.plain [] collidingBase "" [] [] "o.yaml").1
        (mergeValues Fmt.plain [] collidingBase "" [] [] "o.yaml").2 "o.yaml").2)
      (.helm (mergeValues Fmt.plain [] collidingBase "" [] [] "o.yaml").2) = false :=
  ⟨rfl, rfl, rfl, rfl⟩

/-- C20: `convertMap` converts the keys of one level.  For every raw mapping
whose keys have pairwise distinct `%v` renderings, the result has exactly one
binding per binding of the input, in the same order, keyed by the rendering
of the input key, and the value bound is the input value itself, nested raw
mappings included. -/
theorem C20_convertMap_shallow (F : Fmt) (m : List (Scalar × Raw))
    (hnd : (m.map fun kv => kv.1.format F).Nodup) :
    convertMap F m = m.map (fun kv => (kv.1.format F, kv.2)) ∧
    (convertMap F m).length = m.length ∧
    ∀ k v, (k, v) ∈ m → mapGet (convertMap F m) (k.format F) = some v := by
  have h := convertMap_of_nodup F m hnd
  refine ⟨h, by rw [h, List.length_map], ?_⟩
  intro k v hmem
  apply mapGet_of_mem_nodup (nodup_keys_convertMap F m)
  rw [h]
  exact List.mem_map.mpr ⟨(k, v), hmem, rfl⟩

/-- Witness for C20: the raw mapping `{1: {2: x}, a: null}`. -/
theorem C20_convertMap_shallow_witness :
    convertMap Fmt.plain [(.int 1, .map [(.int 2, .scalar (.str "x"))]), (.str "a", .scalar .null)] =
      [("1", .map [(.int 2, .scalar (.str "x"))]), ("a", .scalar .null)] :=
  (C20_convertMap_shallow Fmt.plain
    [(.int 1, .map [(.int 2, .scalar (.str "x"))]), (.str "a", .scalar .null)]
    (by decide)).1

end HelmMerge
